import Mathlib

/-!
# Kaypro 1 scan module: the USART receive handler

A shallow embedding of `Scan/Kaypro1/scan_loop.c`.

* `KeyIndex_Buffer` / `KeyIndex_BufferUsed` are the two shared variables of the
  module; the array is a list of cells, the counter a `uint8_t`.
* `KEYBOARD_BUFFER` is defined in `scan_loop.h`; it is a parameter here.
* `UDR1` is read once (the received byte, the argument `keyValue`) and written
  at most once; the writes are recorded in order in `UDR1_tx`.
* `cli`, `sei` and the debug printing have no effect on the modelled state.
-/

set_option autoImplicit false

namespace Kaypro1

/-! ## State -/

/-- The memory the receive handler touches. -/
structure State where
  /-- The array `volatile uint8_t KeyIndex_Buffer[KEYBOARD_BUFFER]`. -/
  KeyIndex_Buffer : List Nat
  /-- The counter `volatile uint8_t KeyIndex_BufferUsed`. -/
  KeyIndex_BufferUsed : Nat
  /-- Bytes stored to the transmit register `UDR1`, oldest first. -/
  UDR1_tx : List Nat
deriving DecidableEq, Repr

/-- Conversion of a C `int` value to `uint8_t` on assignment. -/
def toUint8 (i : Int) : Nat := (i % 256).toNat

/-- Short beep, turns off clicker: `static uint8_t cmd_clickOFF = 0x0A`. -/
def cmd_clickOFF : Nat := 0x0A
/-- Long beep, turns on clicker: `static uint8_t cmd_clickON = 0x04`. -/
def cmd_clickON : Nat := 0x04
/-- Keyboard will send ack (0xAA) back to PC: `static uint8_t cmd_ACK_AA = 0x10`. -/
def cmd_ACK_AA : Nat := 0x10

/-! ## Code -/

/-- The macro `bufferAdd(byte)`:
`if ( KeyIndex_BufferUsed < KEYBOARD_BUFFER ) KeyIndex_Buffer[KeyIndex_BufferUsed++] = byte`.
The argument is an `int` expression, the store truncates it to `uint8_t`, and
the post-increment is on a `uint8_t`. -/
def bufferAdd (KEYBOARD_BUFFER : Nat) (byte : Int) (s : State) : State :=
  if s.KeyIndex_BufferUsed < KEYBOARD_BUFFER then
    { s with
      KeyIndex_Buffer := s.KeyIndex_Buffer.set s.KeyIndex_BufferUsed (toUint8 byte)
      KeyIndex_BufferUsed := (s.KeyIndex_BufferUsed + 1) % 256 }
  else s

/-- The first `switch ( keyValue )` of the handler: split out Shift and Ctrl and
add the key(s) to the processing buffer. -/
def addKeys (KEYBOARD_BUFFER : Nat) (keyValue : Nat) (s : State) : State :=
  let k : Int := keyValue
  let add := bufferAdd KEYBOARD_BUFFER
  -- case 0x08: case 0x09: case 0x0D: case 0x1B:
  if keyValue = 0x08 ∨ keyValue = 0x09 ∨ keyValue = 0x0D ∨ keyValue = 0x1B then
    add k s
  -- case 0x00: case 0x1C: case 0x1D: case 0x1E: case 0x1F:
  else if keyValue = 0x00 ∨ keyValue = 0x1C ∨ keyValue = 0x1D ∨ keyValue = 0x1E
      ∨ keyValue = 0x1F then
    add (k + 0x40) (add 0xF6 s)
  -- case 0x21: case 0x23: case 0x24: case 0x25:
  else if keyValue = 0x21 ∨ keyValue = 0x23 ∨ keyValue = 0x24 ∨ keyValue = 0x25 then
    add (k + 0x10) (add 0xF5 s)
  -- case 0x26: case 0x28:
  else if keyValue = 0x26 ∨ keyValue = 0x28 then
    add (k + 0x11) (add 0xF5 s)
  -- case 0x29:
  else if keyValue = 0x29 then
    add (k + 0x07) (add 0xF5 s)
  -- case 0x40:
  else if keyValue = 0x40 then
    add (k - 0x0E) (add 0xF5 s)
  -- case 0x2A:
  else if keyValue = 0x2A then
    add (k + 0x0E) (add 0xF5 s)
  -- case 0x2B:
  else if keyValue = 0x2B then
    add (k + 0x12) (add 0xF5 s)
  -- case 0x22:
  else if keyValue = 0x22 then
    add (k + 0x05) (add 0xF5 s)
  -- case 0x3A:
  else if keyValue = 0x3A then
    add (k + 0x01) (add 0xF5 s)
  -- case 0x3C: case 0x3E: case 0x3F:
  else if keyValue = 0x3C ∨ keyValue = 0x3E ∨ keyValue = 0x3F then
    add (k - 0x10) (add 0xF5 s)
  -- case 0x5E:
  else if keyValue = 0x5E then
    add (k - 0x28) (add 0xF5 s)
  -- case 0x5F:
  else if keyValue = 0x5F then
    add (k - 0x32) (add 0xF5 s)
  -- case 0x7B: case 0x7C: case 0x7D:
  else if keyValue = 0x7B ∨ keyValue = 0x7C ∨ keyValue = 0x7D then
    add (k - 0x20) (add 0xF5 s)
  -- case 0x7E:
  else if keyValue = 0x7E then
    add (k - 0x1E) (add 0xF5 s)
  -- default:
  else if keyValue ≥ 0x00 ∧ keyValue ≤ 0x1F then
    add (k + 0x60) (add 0xF6 s)
  else if keyValue ≥ 0x41 ∧ keyValue ≤ 0x5A then
    add (k + 0x20) (add 0xF5 s)
  else
    add k s

/-- The second `switch ( keyValue )` of the handler: the special keys, for
communication to the keyboard. -/
def specialKeys (keyValue : Nat) (s : State) : State :=
  -- case 0xC3: Keypad Enter
  if keyValue = 0xC3 then
    { s with UDR1_tx := s.UDR1_tx ++ [cmd_clickON] }
  -- case 0xB2: Keypad Decimal
  else if keyValue = 0xB2 then
    { s with UDR1_tx := s.UDR1_tx ++ [cmd_clickOFF] }
  -- case 0x0A: Line Feed
  else if keyValue = 0x0A then
    { s with UDR1_tx := s.UDR1_tx ++ [cmd_ACK_AA] }
  else s

/-- The handler `ISR(USART1_RX_vect)`, run with `keyValue = UDR1`. -/
def USART1_RX_vect (KEYBOARD_BUFFER : Nat) (keyValue : Nat) (s : State) : State :=
  specialKeys keyValue (addKeys KEYBOARD_BUFFER keyValue s)

/-- The handler run once per byte of `bs`, in arrival order. -/
def receive (KEYBOARD_BUFFER : Nat) (bs : List Nat) (s : State) : State :=
  bs.foldl (fun st b => USART1_RX_vect KEYBOARD_BUFFER b st) s

/-! ## Vocabulary of the specification -/

/-- The stored part of the buffer: the first `KeyIndex_BufferUsed` cells. -/
def contents (s : State) : List Nat :=
  s.KeyIndex_Buffer.take s.KeyIndex_BufferUsed

/-- The step from `s` to `t` appends exactly `out` to the buffer: the counter grows
by the length of `out`, the stored part grows by `out` at its end, and the cells
past the new counter keep their values. -/
def Appends (s t : State) (out : List Nat) : Prop :=
  t.KeyIndex_BufferUsed = s.KeyIndex_BufferUsed + out.length ∧
  contents t = contents s ++ out ∧
  t.KeyIndex_Buffer.drop t.KeyIndex_BufferUsed
    = s.KeyIndex_Buffer.drop t.KeyIndex_BufferUsed ∧
  t.KeyIndex_Buffer.length = s.KeyIndex_Buffer.length

instance (s t : State) (out : List Nat) : Decidable (Appends s t out) :=
  inferInstanceAs (Decidable (_ ∧ _ ∧ _ ∧ _))

/-- The state `t` is `s` after one or two runs of the append macro. -/
def OneOrTwoAdds (KEYBOARD_BUFFER : Nat) (s t : State) : Prop :=
  (∃ x, t = bufferAdd KEYBOARD_BUFFER x s) ∨
  (∃ x y, t = bufferAdd KEYBOARD_BUFFER y (bufferAdd KEYBOARD_BUFFER x s))

/-- The bytes the second switch stores to `UDR1` for a received byte, as the
specification lists them: `0xC3` gives `0x04`, `0xB2` gives `0x0A`, `0x0A` gives
`0x10`, every other byte nothing. -/
def controlReply (b : Nat) : List Nat :=
  if b = 0xC3 then [0x04] else if b = 0xB2 then [0x0A] else if b = 0x0A then [0x10] else []

/-- The explicit shift-offset table as the specification lists it: pairs of a
received value and its signed offset back to the unshifted key. -/
def shiftOffsetTable : List (Nat × Int) :=
  [(0x21, 0x10), (0x23, 0x10), (0x24, 0x10), (0x25, 0x10), (0x26, 0x11), (0x28, 0x11),
   (0x29, 0x07), (0x40, -0x0E), (0x2A, 0x0E), (0x2B, 0x12), (0x22, 0x05), (0x3A, 0x01),
   (0x3C, -0x10), (0x3E, -0x10), (0x3F, -0x10), (0x5E, -0x28), (0x5F, -0x32),
   (0x7B, -0x20), (0x7C, -0x20), (0x7D, -0x20), (0x7E, -0x1E)]

/-- The exception passthrough set of the specification. -/
def exceptionSet : List Nat := [0x08, 0x09, 0x0D, 0x1B]

/-- The low control-offset set of the specification. -/
def lowControlSet : List Nat := [0x00, 0x1C, 0x1D, 0x1E, 0x1F]

/-- An idle module with an all-zero array of `n` cells, used for concrete runs. -/
def idle (n : Nat) : State :=
  { KeyIndex_Buffer := List.replicate n 0, KeyIndex_BufferUsed := 0, UDR1_tx := [] }

/-- The arguments of the `bufferAdd( ... )` calls that the first `switch ( keyValue )`
makes, in program order, as the `int` expressions the source writes (before the store
truncates them to `uint8_t`). -/
def bufferAddArgs (keyValue : Nat) : List Int :=
  let k : Int := keyValue
  -- case 0x08: case 0x09: case 0x0D: case 0x1B:
  if keyValue = 0x08 ∨ keyValue = 0x09 ∨ keyValue = 0x0D ∨ keyValue = 0x1B then
    [k]
  -- case 0x00: case 0x1C: case 0x1D: case 0x1E: case 0x1F:
  else if keyValue = 0x00 ∨ keyValue = 0x1C ∨ keyValue = 0x1D ∨ keyValue = 0x1E
      ∨ keyValue = 0x1F then
    [0xF6, k + 0x40]
  -- case 0x21: case 0x23: case 0x24: case 0x25:
  else if keyValue = 0x21 ∨ keyValue = 0x23 ∨ keyValue = 0x24 ∨ keyValue = 0x25 then
    [0xF5, k + 0x10]
  -- case 0x26: case 0x28:
  else if keyValue = 0x26 ∨ keyValue = 0x28 then
    [0xF5, k + 0x11]
  -- case 0x29:
  else if keyValue = 0x29 then
    [0xF5, k + 0x07]
  -- case 0x40:
  else if keyValue = 0x40 then
    [0xF5, k - 0x0E]
  -- case 0x2A:
  else if keyValue = 0x2A then
    [0xF5, k + 0x0E]
  -- case 0x2B:
  else if keyValue = 0x2B then
    [0xF5, k + 0x12]
  -- case 0x22:
  else if keyValue = 0x22 then
    [0xF5, k + 0x05]
  -- case 0x3A:
  else if keyValue = 0x3A then
    [0xF5, k + 0x01]
  -- case 0x3C: case 0x3E: case 0x3F:
  else if keyValue = 0x3C ∨ keyValue = 0x3E ∨ keyValue = 0x3F then
    [0xF5, k - 0x10]
  -- case 0x5E:
  else if keyValue = 0x5E then
    [0xF5, k - 0x28]
  -- case 0x5F:
  else if keyValue = 0x5F then
    [0xF5, k - 0x32]
  -- case 0x7B: case 0x7C: case 0x7D:
  else if keyValue = 0x7B ∨ keyValue = 0x7C ∨ keyValue = 0x7D then
    [0xF5, k - 0x20]
  -- case 0x7E:
  else if keyValue = 0x7E then
    [0xF5, k - 0x1E]
  -- default:
  else if keyValue ≥ 0x00 ∧ keyValue ≤ 0x1F then
    [0xF6, k + 0x60]
  else if keyValue ≥ 0x41 ∧ keyValue ≤ 0x5A then
    [0xF5, k + 0x20]
  else
    [k]

/-- The append macro run once for each element of `args`, in order. -/
def bufferAdds (KEYBOARD_BUFFER : Nat) (args : List Int) (s : State) : State :=
  args.foldl (fun st x => bufferAdd KEYBOARD_BUFFER x st) s

/-- The bytes the first switch offers to the buffer for a received byte: the
arguments of its `bufferAdd` calls after truncation to `uint8_t`. -/
def emitted (keyValue : Nat) : List Nat :=
  (bufferAddArgs keyValue).map toUint8

/-- The classification algorithm as the specification states it, in priority order
with the first match winning: exception passthrough, low control-offset set,
explicit shift-offset table, control range, shifted letters, default. -/
def classify (b : Nat) : List Nat :=
  if b ∈ exceptionSet then [b]
  else if b ∈ lowControlSet then [0xF6, b + 0x40]
  else match shiftOffsetTable.lookup b with
    | some off => [0xF5, ((b : Int) + off).toNat]
    | none =>
      if b ≤ 0x1F then [0xF6, b + 0x60]
      else if 0x41 ≤ b ∧ b ≤ 0x5A then [0xF5, b + 0x20]
      else [b]

/-- A consumer's reading of one classification output back to the received byte:
a plain byte is itself, a byte after `0xF6` loses the offset `0x40` or `0x60`, a
byte after `0xF5` is looked up in the shift-offset table and otherwise loses
`0x20`. -/
def decode : List Nat → Option Nat
  | [v] => some v
  | [m, v] =>
    if m = 0xF6 then
      if v = 0x40 ∨ (0x5C ≤ v ∧ v ≤ 0x5F) then some (v - 0x40) else some (v - 0x60)
    else if m = 0xF5 then
      match shiftOffsetTable.find? (fun p => ((p.1 : Int) + p.2).toNat = v) with
      | some p => some p.1
      | none => some (v - 0x20)
    else none
  | _ => none

/-! ## Lemmas on lists -/

theorem take_succ_set (l : List Nat) (n x : Nat) (h : n < l.length) :
    (l.set n x).take (n + 1) = l.take n ++ [x] := by
  induction l generalizing n with
  | nil => simp at h
  | cons a t ih =>
    cases n with
    | zero => simp
    | succ m =>
      have hm : m < t.length := by simpa using h
      simp [ih m hm]

theorem drop_succ_set (l : List Nat) (n x : Nat) :
    (l.set n x).drop (n + 1) = l.drop (n + 1) := by
  induction l generalizing n with
  | nil => simp
  | cons a t ih =>
    cases n with
    | zero => simp
    | succ m => simp [ih m]

/-! ## The append macro -/

theorem bufferAdd_room (cap : Nat) (byte : Int) (s : State)
    (hu8 : s.KeyIndex_BufferUsed < 255) (hroom : s.KeyIndex_BufferUsed < cap) :
    bufferAdd cap byte s =
      { s with
        KeyIndex_Buffer := s.KeyIndex_Buffer.set s.KeyIndex_BufferUsed (toUint8 byte)
        KeyIndex_BufferUsed := s.KeyIndex_BufferUsed + 1 } := by
  have hmod : (s.KeyIndex_BufferUsed + 1) % 256 = s.KeyIndex_BufferUsed + 1 :=
    Nat.mod_eq_of_lt (by omega)
  simp [bufferAdd, hroom, hmod]

theorem bufferAdd_full (cap : Nat) (byte : Int) (s : State)
    (hfull : cap ≤ s.KeyIndex_BufferUsed) : bufferAdd cap byte s = s := by
  simp [bufferAdd, Nat.not_lt.mpr hfull]

theorem bufferAdd_length (cap : Nat) (byte : Int) (s : State) :
    (bufferAdd cap byte s).KeyIndex_Buffer.length = s.KeyIndex_Buffer.length := by
  unfold bufferAdd
  split <;> simp

theorem bufferAdd_tx (cap : Nat) (byte : Int) (s : State) :
    (bufferAdd cap byte s).UDR1_tx = s.UDR1_tx := by
  unfold bufferAdd
  split <;> rfl

theorem toUint8_natCast (b : Nat) (h : b < 256) : toUint8 (b : Int) = b := by
  unfold toUint8
  omega

theorem appends_unique {s t : State} {a b : List Nat}
    (h₁ : Appends s t a) (h₂ : Appends s t b) : a = b :=
  List.append_cancel_left (h₁.2.1.symm.trans h₂.2.1)

theorem appends_trans {s t u : State} {a b : List Nat}
    (h₁ : Appends s t a) (h₂ : Appends t u b) : Appends s u (a ++ b) := by
  obtain ⟨hu₁, hc₁, hd₁, hl₁⟩ := h₁
  obtain ⟨hu₂, hc₂, hd₂, hl₂⟩ := h₂
  refine ⟨by simp [hu₂, hu₁, Nat.add_assoc], by simp [hc₂, hc₁], ?_, hl₂.trans hl₁⟩
  have hk : u.KeyIndex_BufferUsed = t.KeyIndex_BufferUsed + b.length := hu₂
  have h := congrArg (List.drop b.length) hd₁
  rw [List.drop_drop, List.drop_drop] at h
  rw [hd₂, hk]
  simpa [Nat.add_comm] using h

theorem bufferAdd_appends (cap : Nat) (byte : Int) (s : State)
    (hlen : s.KeyIndex_Buffer.length = cap) (hu8 : s.KeyIndex_BufferUsed < 255)
    (hroom : s.KeyIndex_BufferUsed < cap) :
    Appends s (bufferAdd cap byte s) [toUint8 byte] := by
  rw [bufferAdd_room cap byte s hu8 hroom]
  refine ⟨rfl, ?_, ?_, by simp⟩
  · exact take_succ_set _ _ _ (hlen ▸ hroom)
  · exact drop_succ_set _ _ _

theorem bufferAdd_appends₂ (cap : Nat) (x y : Int) (s : State)
    (hlen : s.KeyIndex_Buffer.length = cap) (hu8 : s.KeyIndex_BufferUsed + 2 ≤ 255)
    (hroom : s.KeyIndex_BufferUsed + 2 ≤ cap) :
    Appends s (bufferAdd cap y (bufferAdd cap x s)) [toUint8 x, toUint8 y] := by
  have h₁ := bufferAdd_appends cap x s hlen (by omega) (by omega)
  have h₂ := bufferAdd_appends cap y (bufferAdd cap x s)
    (by rw [bufferAdd_length, hlen]) (by rw [h₁.1]; simp; omega) (by rw [h₁.1]; simp; omega)
  exact appends_trans h₁ h₂

theorem toUint8_of_eq (i : Int) (n : Nat) (h : i = n) (hn : n < 256) : toUint8 i = n := by
  subst h
  exact toUint8_natCast n hn

theorem toUint8_F5 : toUint8 0xF5 = 0xF5 := by decide

theorem toUint8_F6 : toUint8 0xF6 = 0xF6 := by decide

/-! ## The first switch, class by class -/

theorem addKeys_exception (cap b : Nat) (s : State) (hexc : b ∈ exceptionSet) :
    addKeys cap b s = bufferAdd cap b s := by
  simp only [exceptionSet, List.mem_cons, List.mem_singleton, List.not_mem_nil,
    or_false] at hexc
  simp [addKeys, hexc]

theorem addKeys_low (cap b : Nat) (s : State) (hlow : b ∈ lowControlSet) :
    addKeys cap b s = bufferAdd cap (b + 0x40) (bufferAdd cap 0xF6 s) := by
  simp only [lowControlSet, List.mem_cons, List.mem_singleton, List.not_mem_nil,
    or_false] at hlow
  rcases hlow with rfl | rfl | rfl | rfl | rfl <;> simp [addKeys]

theorem addKeys_control (cap b : Nat) (s : State) (hb : b ≤ 0x1F)
    (hexc : b ∉ exceptionSet) (hlow : b ∉ lowControlSet) :
    addKeys cap b s = bufferAdd cap (b + 0x60) (bufferAdd cap 0xF6 s) := by
  interval_cases b <;> simp [exceptionSet, lowControlSet] at hexc hlow <;> simp [addKeys]

theorem addKeys_upper (cap b : Nat) (s : State) (hlo : 0x41 ≤ b) (hhi : b ≤ 0x5A) :
    addKeys cap b s = bufferAdd cap (b + 0x20) (bufferAdd cap 0xF5 s) := by
  interval_cases b <;> simp [addKeys]

theorem addKeys_default (cap b : Nat) (s : State)
    (hexc : b ∉ exceptionSet) (hlow : b ∉ lowControlSet)
    (htab : b ∉ shiftOffsetTable.map Prod.fst)
    (hctl : ¬ b ≤ 0x1F) (hup : ¬ (0x41 ≤ b ∧ b ≤ 0x5A)) :
    addKeys cap b s = bufferAdd cap b s := by
  simp only [exceptionSet, lowControlSet, shiftOffsetTable, List.map, List.mem_cons,
    List.mem_singleton, List.not_mem_nil, or_false, not_or] at hexc hlow htab
  simp [addKeys, hexc, hlow, htab, hctl, hup]

/-! ## Shape of the first switch -/

theorem oneOrTwoAdds_ite (cap : Nat) (s : State) (c : Prop) [Decidable c] (a b : State)
    (ha : OneOrTwoAdds cap s a) (hb : OneOrTwoAdds cap s b) :
    OneOrTwoAdds cap s (if c then a else b) := by
  split <;> assumption

theorem oneOrTwoAdds_one (cap : Nat) (s : State) (x : Int) :
    OneOrTwoAdds cap s (bufferAdd cap x s) := Or.inl ⟨x, rfl⟩

theorem oneOrTwoAdds_two (cap : Nat) (s : State) (x y : Int) :
    OneOrTwoAdds cap s (bufferAdd cap y (bufferAdd cap x s)) := Or.inr ⟨x, y, rfl⟩

theorem addKeys_shape (cap b : Nat) (s : State) : OneOrTwoAdds cap s (addKeys cap b s) := by
  simp only [addKeys]
  repeat' first
    | exact oneOrTwoAdds_one _ _ _
    | exact oneOrTwoAdds_two _ _ _ _
    | apply oneOrTwoAdds_ite

theorem addKeys_tx (cap b : Nat) (s : State) :
    (addKeys cap b s).UDR1_tx = s.UDR1_tx := by
  rcases addKeys_shape cap b s with ⟨x, h⟩ | ⟨x, y, h⟩ <;> simp [h, bufferAdd_tx]

/-! ## Bounds and preservation -/

theorem bufferAdd_keeps (cap : Nat) (x : Int) (s : State)
    (hcap : cap ≤ 255) (hu : s.KeyIndex_BufferUsed ≤ cap) :
    s.KeyIndex_BufferUsed ≤ (bufferAdd cap x s).KeyIndex_BufferUsed ∧
    (bufferAdd cap x s).KeyIndex_BufferUsed ≤ cap ∧
    ∀ i, i < s.KeyIndex_BufferUsed →
      (bufferAdd cap x s).KeyIndex_Buffer[i]? = s.KeyIndex_Buffer[i]? := by
  by_cases h : s.KeyIndex_BufferUsed < cap
  · rw [bufferAdd_room cap x s (by omega) h]
    refine ⟨Nat.le_succ _, h, fun i hi => ?_⟩
    exact List.getElem?_set_ne (by omega)
  · rw [bufferAdd_full cap x s (by omega)]
    exact ⟨le_refl _, hu, fun _ _ => rfl⟩

theorem addKeys_keeps (cap b : Nat) (s : State)
    (hcap : cap ≤ 255) (hu : s.KeyIndex_BufferUsed ≤ cap) :
    s.KeyIndex_BufferUsed ≤ (addKeys cap b s).KeyIndex_BufferUsed ∧
    (addKeys cap b s).KeyIndex_BufferUsed ≤ cap ∧
    ∀ i, i < s.KeyIndex_BufferUsed →
      (addKeys cap b s).KeyIndex_Buffer[i]? = s.KeyIndex_Buffer[i]? := by
  rcases addKeys_shape cap b s with ⟨x, h⟩ | ⟨x, y, h⟩
  · rw [h]
    exact bufferAdd_keeps cap x s hcap hu
  · rw [h]
    obtain ⟨h₁, h₂, h₃⟩ := bufferAdd_keeps cap x s hcap hu
    obtain ⟨k₁, k₂, k₃⟩ := bufferAdd_keeps cap y (bufferAdd cap x s) hcap h₂
    exact ⟨h₁.trans k₁, k₂, fun i hi => (k₃ i (by omega)).trans (h₃ i hi)⟩

/-! ## The handler -/

theorem specialKeys_buffer (b : Nat) (s : State) :
    (specialKeys b s).KeyIndex_Buffer = s.KeyIndex_Buffer ∧
    (specialKeys b s).KeyIndex_BufferUsed = s.KeyIndex_BufferUsed := by
  unfold specialKeys
  split_ifs <;> exact ⟨rfl, rfl⟩

theorem appends_specialKeys {s t : State} {out : List Nat} (b : Nat)
    (h : Appends s t out) : Appends s (specialKeys b t) out := by
  obtain ⟨hb, hu⟩ := specialKeys_buffer b t
  unfold Appends contents at *
  rw [hb, hu]
  exact h

theorem rx_appends₁ (cap b : Nat) (x : Int) (s : State)
    (hcode : addKeys cap b s = bufferAdd cap x s)
    (hlen : s.KeyIndex_Buffer.length = cap) (hu8 : s.KeyIndex_BufferUsed + 1 ≤ 255)
    (hroom : s.KeyIndex_BufferUsed + 1 ≤ cap) :
    Appends s (USART1_RX_vect cap b s) [toUint8 x] := by
  unfold USART1_RX_vect
  rw [hcode]
  exact appends_specialKeys b (bufferAdd_appends cap x s hlen (by omega) hroom)

theorem rx_appends₂ (cap b : Nat) (x y : Int) (s : State)
    (hcode : addKeys cap b s = bufferAdd cap y (bufferAdd cap x s))
    (hlen : s.KeyIndex_Buffer.length = cap) (hu8 : s.KeyIndex_BufferUsed + 2 ≤ 255)
    (hroom : s.KeyIndex_BufferUsed + 2 ≤ cap) :
    Appends s (USART1_RX_vect cap b s) [toUint8 x, toUint8 y] := by
  unfold USART1_RX_vect
  rw [hcode]
  exact appends_specialKeys b (bufferAdd_appends₂ cap x y s hlen hu8 hroom)

theorem rx_tx (cap b : Nat) (s : State) :
    (USART1_RX_vect cap b s).UDR1_tx = s.UDR1_tx ++ controlReply b := by
  unfold USART1_RX_vect specialKeys controlReply
  split_ifs <;> simp [addKeys_tx, cmd_clickON, cmd_clickOFF, cmd_ACK_AA]

/-! ## Shift-offset table -/

/-- C1: for every entry `(b, off)` of the shift-offset table and every state with
at least two free slots, the handler appends exactly `0xF5` followed by the byte
`b + off`, which is the exact integer sum. -/
theorem shift_table_appends (KEYBOARD_BUFFER b : Nat) (off : Int) (s : State)
    (htab : (b, off) ∈ shiftOffsetTable)
    (hlen : s.KeyIndex_Buffer.length = KEYBOARD_BUFFER)
    (hcap : KEYBOARD_BUFFER ≤ 255)
    (hfree : s.KeyIndex_BufferUsed + 2 ≤ KEYBOARD_BUFFER) :
    Appends s (USART1_RX_vect KEYBOARD_BUFFER b s) [0xF5, toUint8 (b + off)] ∧
      (toUint8 (b + off) : Int) = b + off := by
  simp only [shiftOffsetTable, List.mem_cons, Prod.mk.injEq, List.mem_singleton,
    List.not_mem_nil, or_false] at htab
  rcases htab with h | h | h | h | h | h | h | h | h | h | h | h | h | h | h | h | h | h | h | h | h <;>
    obtain ⟨rfl, rfl⟩ := h <;>
    exact ⟨rx_appends₂ KEYBOARD_BUFFER _ 0xF5 _ s (by simp [addKeys]) hlen (by omega) hfree,
      by decide⟩

/-- C1 at the entry `0x40 → -0x0E`, with one byte already stored in a buffer of
four cells. -/
theorem shift_table_appends_witness :
    ((0x40, -0x0E) ∈ shiftOffsetTable ∧
      (State.mk [7, 0, 0, 0] 1 []).KeyIndex_Buffer.length = 4 ∧ 4 ≤ 255 ∧
      (State.mk [7, 0, 0, 0] 1 []).KeyIndex_BufferUsed + 2 ≤ 4) ∧
    Appends (State.mk [7, 0, 0, 0] 1 [])
      (USART1_RX_vect 4 0x40 (State.mk [7, 0, 0, 0] 1 [])) [0xF5, 0x32] ∧
    ((0x32 : Nat) : Int) = ((0x40 : Nat) : Int) + -0x0E := by
  have h := shift_table_appends 4 0x40 (-0x0E) (State.mk [7, 0, 0, 0] 1 [])
    (by decide) (by decide) (by decide) (by decide)
  exact ⟨⟨by decide, by decide, by decide, by decide⟩, h⟩

/-! ## Control range -/

/-- C2: for every received byte `b` in `[0x00, 0x1F]` that is neither in the
exception set nor in the low control-offset set, and every state with at least two
free slots, the handler appends exactly `0xF6` followed by `b + 0x60`. -/
theorem control_range_appends (KEYBOARD_BUFFER b : Nat) (s : State)
    (hrange : 0x00 ≤ b ∧ b ≤ 0x1F)
    (hexc : b ∉ exceptionSet) (hlow : b ∉ lowControlSet)
    (hlen : s.KeyIndex_Buffer.length = KEYBOARD_BUFFER)
    (hcap : KEYBOARD_BUFFER ≤ 255)
    (hfree : s.KeyIndex_BufferUsed + 2 ≤ KEYBOARD_BUFFER) :
    Appends s (USART1_RX_vect KEYBOARD_BUFFER b s) [0xF6, b + 0x60] := by
  have h := rx_appends₂ KEYBOARD_BUFFER b 0xF6 (b + 0x60) s
    (addKeys_control KEYBOARD_BUFFER b s hrange.2 hexc hlow) hlen (by omega) hfree
  rwa [toUint8_of_eq ((b : Int) + 0x60) (b + 0x60) (by push_cast; rfl) (by omega), toUint8_F6] at h

/-- C2 at `b = 0x0A` (line feed), on an empty buffer of two cells. -/
theorem control_range_appends_witness :
    ((0x00 ≤ 0x0A ∧ 0x0A ≤ 0x1F) ∧ 0x0A ∉ exceptionSet ∧ 0x0A ∉ lowControlSet ∧
      (idle 2).KeyIndex_Buffer.length = 2 ∧ 2 ≤ 255 ∧
      (idle 2).KeyIndex_BufferUsed + 2 ≤ 2) ∧
    Appends (idle 2) (USART1_RX_vect 2 0x0A (idle 2)) [0xF6, 0x0A + 0x60] :=
  ⟨⟨by decide, by decide, by decide, by decide, by decide, by decide⟩,
    control_range_appends 2 0x0A (idle 2)
      (by decide) (by decide) (by decide) (by decide) (by decide) (by decide)⟩

/-- C3: for every received byte `b` in the low control-offset set and every state
with at least two free slots, the handler appends exactly `0xF6` followed by
`b + 0x40`, and it does not append the range-fallback pair `0xF6`, `b + 0x60`. -/
theorem low_control_appends (KEYBOARD_BUFFER b : Nat) (s : State)
    (hlow : b ∈ lowControlSet)
    (hlen : s.KeyIndex_Buffer.length = KEYBOARD_BUFFER)
    (hcap : KEYBOARD_BUFFER ≤ 255)
    (hfree : s.KeyIndex_BufferUsed + 2 ≤ KEYBOARD_BUFFER) :
    Appends s (USART1_RX_vect KEYBOARD_BUFFER b s) [0xF6, b + 0x40] ∧
      ¬ Appends s (USART1_RX_vect KEYBOARD_BUFFER b s) [0xF6, b + 0x60] := by
  have hb : b ≤ 0x1F := by
    simp only [lowControlSet, List.mem_cons, List.mem_singleton, List.not_mem_nil,
      or_false] at hlow
    omega
  have key : Appends s (USART1_RX_vect KEYBOARD_BUFFER b s) [0xF6, b + 0x40] := by
    have h := rx_appends₂ KEYBOARD_BUFFER b 0xF6 (b + 0x40) s
      (addKeys_low KEYBOARD_BUFFER b s hlow) hlen (by omega) hfree
    rwa [toUint8_of_eq ((b : Int) + 0x40) (b + 0x40) (by push_cast; rfl) (by omega), toUint8_F6] at h
  refine ⟨key, fun h => ?_⟩
  have := appends_unique key h
  simp at this

/-- C3 at `b = 0x1C`, with two bytes already stored in a buffer of four cells. -/
theorem low_control_appends_witness :
    (0x1C ∈ lowControlSet ∧
      (State.mk [0xF5, 0x61, 0, 0] 2 []).KeyIndex_Buffer.length = 4 ∧ 4 ≤ 255 ∧
      (State.mk [0xF5, 0x61, 0, 0] 2 []).KeyIndex_BufferUsed + 2 ≤ 4) ∧
    Appends (State.mk [0xF5, 0x61, 0, 0] 2 [])
      (USART1_RX_vect 4 0x1C (State.mk [0xF5, 0x61, 0, 0] 2 [])) [0xF6, 0x5C] ∧
    ¬ Appends (State.mk [0xF5, 0x61, 0, 0] 2 [])
      (USART1_RX_vect 4 0x1C (State.mk [0xF5, 0x61, 0, 0] 2 [])) [0xF6, 0x7C] :=
  ⟨⟨by decide, by decide, by decide, by decide⟩,
    low_control_appends 4 0x1C (State.mk [0xF5, 0x61, 0, 0] 2 [])
      (by decide) (by decide) (by decide) (by decide)⟩

/-- C4: for every received byte `b` in the exception set and every state with at
least one free slot, the handler appends exactly the single byte `b`; no `0xF6`
marker is stored although `b` lies in `[0x00, 0x1F]`. -/
theorem exception_appends (KEYBOARD_BUFFER b : Nat) (s : State)
    (hexc : b ∈ exceptionSet)
    (hlen : s.KeyIndex_Buffer.length = KEYBOARD_BUFFER)
    (hcap : KEYBOARD_BUFFER ≤ 255)
    (hfree : s.KeyIndex_BufferUsed + 1 ≤ KEYBOARD_BUFFER) :
    Appends s (USART1_RX_vect KEYBOARD_BUFFER b s) [b] ∧ b ≠ 0xF6 ∧ b ≤ 0x1F := by
  have hb : b ≤ 0x1F := by
    simp only [exceptionSet, List.mem_cons, List.mem_singleton, List.not_mem_nil,
      or_false] at hexc
    omega
  have h := rx_appends₁ KEYBOARD_BUFFER b b s
    (addKeys_exception KEYBOARD_BUFFER b s hexc) hlen (by omega) hfree
  rw [toUint8_natCast b (by omega)] at h
  exact ⟨h, by omega, hb⟩

/-- C4 at `b = 0x0D` (return), with exactly one free slot left. -/
theorem exception_appends_witness :
    (0x0D ∈ exceptionSet ∧
      (State.mk [0x61, 0] 1 []).KeyIndex_Buffer.length = 2 ∧ 2 ≤ 255 ∧
      (State.mk [0x61, 0] 1 []).KeyIndex_BufferUsed + 1 ≤ 2) ∧
    Appends (State.mk [0x61, 0] 1 [])
      (USART1_RX_vect 2 0x0D (State.mk [0x61, 0] 1 [])) [0x0D] ∧
    0x0D ≠ 0xF6 ∧ 0x0D ≤ 0x1F :=
  ⟨⟨by decide, by decide, by decide, by decide⟩,
    exception_appends 2 0x0D (State.mk [0x61, 0] 1 [])
      (by decide) (by decide) (by decide) (by decide)⟩

/-! ## Shifted letters and the default rule -/

/-- C5: for every received byte `b` in `[0x41, 0x5A]`, both bounds included, and
every state with at least two free slots, the handler appends exactly `0xF5`
followed by `b + 0x20`. -/
theorem upper_range_appends (KEYBOARD_BUFFER b : Nat) (s : State)
    (hrange : 0x41 ≤ b ∧ b ≤ 0x5A)
    (hlen : s.KeyIndex_Buffer.length = KEYBOARD_BUFFER)
    (hcap : KEYBOARD_BUFFER ≤ 255)
    (hfree : s.KeyIndex_BufferUsed + 2 ≤ KEYBOARD_BUFFER) :
    Appends s (USART1_RX_vect KEYBOARD_BUFFER b s) [0xF5, b + 0x20] := by
  have h := rx_appends₂ KEYBOARD_BUFFER b 0xF5 (b + 0x20) s
    (addKeys_upper KEYBOARD_BUFFER b s hrange.1 hrange.2) hlen (by omega) hfree
  rwa [toUint8_of_eq ((b : Int) + 0x20) (b + 0x20) (by push_cast; rfl) (by omega),
    toUint8_F5] at h

/-- C5 at the upper bound `b = 0x5A`, on an empty buffer of two cells. -/
theorem upper_range_appends_witness :
    ((0x41 ≤ 0x5A ∧ 0x5A ≤ 0x5A) ∧ (idle 2).KeyIndex_Buffer.length = 2 ∧ 2 ≤ 255 ∧
      (idle 2).KeyIndex_BufferUsed + 2 ≤ 2) ∧
    Appends (idle 2) (USART1_RX_vect 2 0x5A (idle 2)) [0xF5, 0x7A] := by
  have h := upper_range_appends 2 0x5A (idle 2)
    (by decide) (by decide) (by decide) (by decide)
  exact ⟨⟨by decide, by decide, by decide, by decide⟩, h⟩

/-- C6: for every received byte `b` (a `uint8_t`) and every state with at least one
free slot, the handler appends exactly the single byte `b` when `b` is in none of
the exception set, the low control-offset set, the shift-offset table,
`[0x00, 0x1F]` and `[0x41, 0x5A]`; in particular it does so when `b ≥ 0x80`. -/
theorem default_appends (KEYBOARD_BUFFER b : Nat) (s : State)
    (hbyte : b < 256)
    (hlen : s.KeyIndex_Buffer.length = KEYBOARD_BUFFER)
    (hcap : KEYBOARD_BUFFER ≤ 255)
    (hfree : s.KeyIndex_BufferUsed + 1 ≤ KEYBOARD_BUFFER) :
    (b ∉ exceptionSet ∧ b ∉ lowControlSet ∧ b ∉ shiftOffsetTable.map Prod.fst ∧
        ¬ (0x00 ≤ b ∧ b ≤ 0x1F) ∧ ¬ (0x41 ≤ b ∧ b ≤ 0x5A) →
      Appends s (USART1_RX_vect KEYBOARD_BUFFER b s) [b]) ∧
    (0x80 ≤ b → Appends s (USART1_RX_vect KEYBOARD_BUFFER b s) [b]) := by
  have key : b ∉ exceptionSet ∧ b ∉ lowControlSet ∧ b ∉ shiftOffsetTable.map Prod.fst ∧
        ¬ (0x00 ≤ b ∧ b ≤ 0x1F) ∧ ¬ (0x41 ≤ b ∧ b ≤ 0x5A) →
      Appends s (USART1_RX_vect KEYBOARD_BUFFER b s) [b] := by
    rintro ⟨hexc, hlow, htab, hctl, hup⟩
    have h := rx_appends₁ KEYBOARD_BUFFER b b s
      (addKeys_default KEYBOARD_BUFFER b s hexc hlow htab (by omega) hup) hlen
      (by omega) hfree
    rwa [toUint8_natCast b hbyte] at h
  refine ⟨key, fun hhigh => key ?_⟩
  simp only [exceptionSet, lowControlSet, shiftOffsetTable, List.map, List.mem_cons,
    List.mem_singleton, List.not_mem_nil, or_false, not_or]
  omega

/-- C6 at `b = 0x80`, with exactly one free slot left. -/
theorem default_appends_witness :
    (0x80 < 256 ∧ (State.mk [0x61, 0] 1 []).KeyIndex_Buffer.length = 2 ∧ 2 ≤ 255 ∧
      (State.mk [0x61, 0] 1 []).KeyIndex_BufferUsed + 1 ≤ 2 ∧
      (0x80 ∉ exceptionSet ∧ 0x80 ∉ lowControlSet ∧
        0x80 ∉ shiftOffsetTable.map Prod.fst ∧
        ¬ (0x00 ≤ 0x80 ∧ 0x80 ≤ 0x1F) ∧ ¬ (0x41 ≤ 0x80 ∧ 0x80 ≤ 0x5A)) ∧
      0x80 ≤ 0x80) ∧
    Appends (State.mk [0x61, 0] 1 [])
      (USART1_RX_vect 2 0x80 (State.mk [0x61, 0] 1 [])) [0x80] := by
  have h := default_appends 2 0x80 (State.mk [0x61, 0] 1 [])
    (by decide) (by decide) (by decide) (by decide)
  exact ⟨⟨by decide, by decide, by decide, by decide, by decide, by decide⟩,
    h.1 (by decide)⟩

/-! ## Capacity invariant -/

theorem rx_keeps (cap b : Nat) (s : State)
    (hcap : cap ≤ 255) (hu : s.KeyIndex_BufferUsed ≤ cap) :
    s.KeyIndex_BufferUsed ≤ (USART1_RX_vect cap b s).KeyIndex_BufferUsed ∧
    (USART1_RX_vect cap b s).KeyIndex_BufferUsed ≤ cap ∧
    ∀ i, i < s.KeyIndex_BufferUsed →
      (USART1_RX_vect cap b s).KeyIndex_Buffer[i]? = s.KeyIndex_Buffer[i]? := by
  obtain ⟨hb, hu'⟩ := specialKeys_buffer b (addKeys cap b s)
  unfold USART1_RX_vect
  rw [hb, hu']
  exact addKeys_keeps cap b s hcap hu

/-- C7: starting from any state with `KeyIndex_BufferUsed ≤ KEYBOARD_BUFFER`, after
the handler has run on any finite sequence of bytes the counter is still at most
`KEYBOARD_BUFFER`, it has not decreased, and every cell below the initial counter
holds the value it held before. -/
theorem receive_capacity_invariant (KEYBOARD_BUFFER : Nat) (bs : List Nat) (s : State)
    (hcap : KEYBOARD_BUFFER ≤ 255)
    (hused : s.KeyIndex_BufferUsed ≤ KEYBOARD_BUFFER) :
    (receive KEYBOARD_BUFFER bs s).KeyIndex_BufferUsed ≤ KEYBOARD_BUFFER ∧
    s.KeyIndex_BufferUsed ≤ (receive KEYBOARD_BUFFER bs s).KeyIndex_BufferUsed ∧
    ∀ i, i < s.KeyIndex_BufferUsed →
      (receive KEYBOARD_BUFFER bs s).KeyIndex_Buffer[i]? = s.KeyIndex_Buffer[i]? := by
  induction bs generalizing s with
  | nil => exact ⟨hused, le_refl _, fun _ _ => rfl⟩
  | cons b bs ih =>
    obtain ⟨h₁, h₂, h₃⟩ := rx_keeps KEYBOARD_BUFFER b s hcap hused
    obtain ⟨k₁, k₂, k₃⟩ := ih (USART1_RX_vect KEYBOARD_BUFFER b s) h₂
    exact ⟨k₁, h₁.trans k₂, fun i hi => (k₃ i (by omega)).trans (h₃ i hi)⟩

/-- C7 on a buffer of three cells holding one byte, fed four bytes that overflow
it. -/
theorem receive_capacity_invariant_witness :
    (3 ≤ 255 ∧ (State.mk [0x61, 0, 0] 1 []).KeyIndex_BufferUsed ≤ 3) ∧
    (receive 3 [0x41, 0x0A, 0xC3, 0x08] (State.mk [0x61, 0, 0] 1 [])).KeyIndex_BufferUsed ≤ 3 ∧
    (State.mk [0x61, 0, 0] 1 []).KeyIndex_BufferUsed
      ≤ (receive 3 [0x41, 0x0A, 0xC3, 0x08] (State.mk [0x61, 0, 0] 1 [])).KeyIndex_BufferUsed ∧
    ∀ i, i < (State.mk [0x61, 0, 0] 1 []).KeyIndex_BufferUsed →
      (receive 3 [0x41, 0x0A, 0xC3, 0x08] (State.mk [0x61, 0, 0] 1 [])).KeyIndex_Buffer[i]?
        = (State.mk [0x61, 0, 0] 1 []).KeyIndex_Buffer[i]? :=
  ⟨⟨by decide, by decide⟩,
    receive_capacity_invariant 3 [0x41, 0x0A, 0xC3, 0x08] (State.mk [0x61, 0, 0] 1 [])
      (by decide) (by decide)⟩

/-! ## Control replies -/

/-- C8: for every received byte `b` and every state, the handler stores to `UDR1`
a list `w` of at most one byte; `w` is non-empty exactly when `b` is `0xC3`, `0xB2`
or `0x0A`, and it is `0x04` for `0xC3`, `0x0A` for `0xB2` and `0x10` for `0x0A`. -/
theorem rx_transmits (KEYBOARD_BUFFER b : Nat) (s : State) :
    ∃ w : List Nat,
      (USART1_RX_vect KEYBOARD_BUFFER b s).UDR1_tx = s.UDR1_tx ++ w ∧
      w.length ≤ 1 ∧
      (w ≠ [] ↔ b = 0xC3 ∨ b = 0xB2 ∨ b = 0x0A) ∧
      (b = 0xC3 → w = [0x04]) ∧ (b = 0xB2 → w = [0x0A]) ∧ (b = 0x0A → w = [0x10]) := by
  refine ⟨controlReply b, rx_tx KEYBOARD_BUFFER b s, ?_, ?_, ?_, ?_, ?_⟩
  · unfold controlReply
    split_ifs <;> simp
  · unfold controlReply
    split_ifs <;> simp [*]
  · rintro rfl
    rfl
  · rintro rfl
    rfl
  · rintro rfl
    rfl

/-- C8 at `b = 0xB2` on a full buffer of one cell: the byte `0x0A` is stored to
`UDR1`. -/
theorem rx_transmits_witness :
    ∃ w : List Nat,
      (USART1_RX_vect 1 0xB2 (State.mk [0x61] 1 [])).UDR1_tx
        = (State.mk [0x61] 1 []).UDR1_tx ++ w ∧
      w.length ≤ 1 ∧
      (w ≠ [] ↔ 0xB2 = 0xC3 ∨ 0xB2 = 0xB2 ∨ 0xB2 = 0x0A) ∧
      (0xB2 = 0xC3 → w = [0x04]) ∧ (0xB2 = 0xB2 → w = [0x0A]) ∧
      (0xB2 = 0x0A → w = [0x10]) :=
  rx_transmits 1 0xB2 (State.mk [0x61] 1 [])

/-! ## The concrete scenario -/

/-- C9, refuted as stated: on an empty buffer of five cells the input
`[0x41, 0x0A, 0xC3]` leaves five stored bytes, the last being `0xC3` itself, so the
stored part is not `[0xF5, 0x61, 0xF6, 0x6A]`. -/
theorem scenario_counterexample :
    contents (receive 5 [0x41, 0x0A, 0xC3] (idle 5)) = [0xF5, 0x61, 0xF6, 0x6A, 0xC3] ∧
    ¬ (contents (receive 5 [0x41, 0x0A, 0xC3] (idle 5)) = [0xF5, 0x61, 0xF6, 0x6A] ∧
        (receive 5 [0x41, 0x0A, 0xC3] (idle 5)).UDR1_tx = [0x10, 0x04]) := by
  decide

/-- C9, amended: running the handler on `[0x41, 0x0A, 0xC3]` from an empty buffer
with capacity at least 5 and nothing transmitted yet leaves the stored part equal to
`[0xF5, 0x61, 0xF6, 0x6A, 0xC3]` and the bytes stored to `UDR1` equal to `0x10`
then `0x04`. -/
theorem scenario (KEYBOARD_BUFFER : Nat) (s : State)
    (hcap : 5 ≤ KEYBOARD_BUFFER)
    (hlen : s.KeyIndex_Buffer.length = KEYBOARD_BUFFER)
    (hempty : s.KeyIndex_BufferUsed = 0)
    (htx : s.UDR1_tx = []) :
    contents (receive KEYBOARD_BUFFER [0x41, 0x0A, 0xC3] s)
        = [0xF5, 0x61, 0xF6, 0x6A, 0xC3] ∧
      (receive KEYBOARD_BUFFER [0x41, 0x0A, 0xC3] s).UDR1_tx = [0x10, 0x04] := by
  have a₁ := rx_appends₂ KEYBOARD_BUFFER 0x41 0xF5 (0x41 + 0x20) s
    (by simp [addKeys]) hlen (by omega) (by omega)
  have a₂ := rx_appends₂ KEYBOARD_BUFFER 0x0A 0xF6 (0x0A + 0x60)
    (USART1_RX_vect KEYBOARD_BUFFER 0x41 s)
    (by simp [addKeys]) (a₁.2.2.2.trans hlen) (by rw [a₁.1]; simp; omega)
    (by rw [a₁.1]; simp; omega)
  have a₃ := rx_appends₁ KEYBOARD_BUFFER 0xC3 0xC3
    (USART1_RX_vect KEYBOARD_BUFFER 0x0A (USART1_RX_vect KEYBOARD_BUFFER 0x41 s))
    (by simp [addKeys]) (a₂.2.2.2.trans (a₁.2.2.2.trans hlen))
    (by rw [a₂.1, a₁.1]; simp; omega) (by rw [a₂.1, a₁.1]; simp; omega)
  have a := appends_trans (appends_trans a₁ a₂) a₃
  refine ⟨?_, ?_⟩
  · have hc : contents s = [] := by simp [contents, hempty]
    have := a.2.1
    rw [hc] at this
    exact this
  · simp [receive, rx_tx, htx, controlReply]

/-- C9 amended, on an idle module with six cells. -/
theorem scenario_witness :
    (5 ≤ 6 ∧ (idle 6).KeyIndex_Buffer.length = 6 ∧ (idle 6).KeyIndex_BufferUsed = 0 ∧
      (idle 6).UDR1_tx = []) ∧
    contents (receive 6 [0x41, 0x0A, 0xC3] (idle 6)) = [0xF5, 0x61, 0xF6, 0x6A, 0xC3] ∧
    (receive 6 [0x41, 0x0A, 0xC3] (idle 6)).UDR1_tx = [0x10, 0x04] :=
  ⟨⟨by decide, by decide, by decide, by decide⟩,
    scenario 6 (idle 6) (by decide) (by decide) (by decide) (by decide)⟩

/-! ## Line feed -/

/-- C10, refuted as stated: `0x0A` is not in the low control-offset set, and on
an empty buffer of two cells the handler does not append `[0xF6, 0x4A]`. -/
theorem line_feed_counterexample :
    0x0A ∉ lowControlSet ∧
    ¬ (Appends (idle 2) (USART1_RX_vect 2 0x0A (idle 2)) [0xF6, 0x0A + 0x40] ∧
        (USART1_RX_vect 2 0x0A (idle 2)).UDR1_tx = [0x10]) := by
  decide

/-- C10, amended: for every state with at least two free slots, the handler on
`0x0A` appends the range-fallback pair `0xF6`, `0x0A + 0x60 = 0x6A` and, in addition,
stores `0x10` to `UDR1`. -/
theorem line_feed (KEYBOARD_BUFFER : Nat) (s : State)
    (hlen : s.KeyIndex_Buffer.length = KEYBOARD_BUFFER)
    (hcap : KEYBOARD_BUFFER ≤ 255)
    (hfree : s.KeyIndex_BufferUsed + 2 ≤ KEYBOARD_BUFFER) :
    Appends s (USART1_RX_vect KEYBOARD_BUFFER 0x0A s) [0xF6, 0x0A + 0x60] ∧
      (USART1_RX_vect KEYBOARD_BUFFER 0x0A s).UDR1_tx = s.UDR1_tx ++ [0x10] := by
  refine ⟨?_, by rw [rx_tx]; rfl⟩
  exact rx_appends₂ KEYBOARD_BUFFER 0x0A 0xF6 (0x0A + 0x60) s (by simp [addKeys]) hlen
    (by omega) hfree

/-- C10 amended, with one byte already stored in a buffer of three cells. -/
theorem line_feed_witness :
    ((State.mk [0x61, 0, 0] 1 []).KeyIndex_Buffer.length = 3 ∧ 3 ≤ 255 ∧
      (State.mk [0x61, 0, 0] 1 []).KeyIndex_BufferUsed + 2 ≤ 3) ∧
    Appends (State.mk [0x61, 0, 0] 1 [])
      (USART1_RX_vect 3 0x0A (State.mk [0x61, 0, 0] 1 [])) [0xF6, 0x6A] ∧
    (USART1_RX_vect 3 0x0A (State.mk [0x61, 0, 0] 1 [])).UDR1_tx = [0x10] :=
  ⟨⟨by decide, by decide, by decide⟩,
    line_feed 3 (State.mk [0x61, 0, 0] 1 []) (by decide) (by decide) (by decide)⟩

/-! ## The first switch as a list of appends -/

theorem addKeys_eq_bufferAdds (cap b : Nat) (s : State) :
    addKeys cap b s = bufferAdds cap (bufferAddArgs b) s := by
  simp only [addKeys, bufferAddArgs, bufferAdds]
  simp only [apply_ite (List.foldl (fun st x => bufferAdd cap x st) s), List.foldl]

theorem bufferAdds_cons (cap : Nat) (x : Int) (xs : List Int) (s : State) :
    bufferAdds cap (x :: xs) s = bufferAdds cap xs (bufferAdd cap x s) := rfl

theorem appends_nil (s : State) : Appends s s [] :=
  ⟨rfl, by simp, rfl, rfl⟩

theorem bufferAdds_appends (cap : Nat) (args : List Int) (s : State)
    (hlen : s.KeyIndex_Buffer.length = cap)
    (hu8 : s.KeyIndex_BufferUsed + args.length ≤ 255)
    (hroom : s.KeyIndex_BufferUsed + args.length ≤ cap) :
    Appends s (bufferAdds cap args s) (args.map toUint8) := by
  induction args generalizing s with
  | nil => exact appends_nil s
  | cons x xs ih =>
    simp only [List.length_cons] at hu8 hroom
    have h₁ := bufferAdd_appends cap x s hlen (by omega) (by omega)
    have h₂ := ih (bufferAdd cap x s) (by rw [bufferAdd_length, hlen])
      (by rw [h₁.1]; simp; omega) (by rw [h₁.1]; simp; omega)
    rw [bufferAdds_cons]
    exact appends_trans h₁ h₂

theorem length_ite (c : Prop) [Decidable c] (a b : List Int)
    (ha : a.length = 1 ∨ a.length = 2) (hb : b.length = 1 ∨ b.length = 2) :
    (if c then a else b).length = 1 ∨ (if c then a else b).length = 2 := by
  split <;> assumption

theorem bufferAddArgs_length (b : Nat) :
    (bufferAddArgs b).length = 1 ∨ (bufferAddArgs b).length = 2 := by
  simp only [bufferAddArgs]
  repeat' first
    | exact Or.inl rfl
    | exact Or.inr rfl
    | apply length_ite

theorem emitted_length (b : Nat) : (emitted b).length = (bufferAddArgs b).length := by
  simp [emitted]

theorem rx_appends_emitted (cap b : Nat) (s : State)
    (hlen : s.KeyIndex_Buffer.length = cap) (hcap : cap ≤ 255)
    (hroom : s.KeyIndex_BufferUsed + (emitted b).length ≤ cap) :
    Appends s (USART1_RX_vect cap b s) (emitted b) := by
  rw [emitted_length] at hroom
  unfold USART1_RX_vect
  rw [addKeys_eq_bufferAdds]
  exact appends_specialKeys b
    (bufferAdds_appends cap (bufferAddArgs b) s hlen (by omega) hroom)

/-! ## The code against the classification rules -/

set_option maxRecDepth 100000 in
theorem emitted_eq_classify : ∀ b, b < 256 → emitted b = classify b := by
  decide

set_option maxRecDepth 100000 in
theorem decode_classify : ∀ b, b < 256 → decode (classify b) = some b := by
  decide

theorem rx_appends_classify (cap b : Nat) (s : State) (hbyte : b < 256)
    (hlen : s.KeyIndex_Buffer.length = cap) (hcap : cap ≤ 255)
    (hroom : s.KeyIndex_BufferUsed + (classify b).length ≤ cap) :
    Appends s (USART1_RX_vect cap b s) (classify b) := by
  rw [← emitted_eq_classify b hbyte] at hroom ⊢
  exact rx_appends_emitted cap b s hlen hcap hroom

theorem classify_length (b : Nat) (hbyte : b < 256) :
    (classify b).length = 1 ∨ (classify b).length = 2 := by
  rw [← emitted_eq_classify b hbyte, emitted_length]
  exact bufferAddArgs_length b

set_option maxRecDepth 100000 in
theorem classify_marker : ∀ b, b < 256 → (classify b).length = 2 →
    (classify b).head? = some 0xF5 ∨ (classify b).head? = some 0xF6 := by
  decide

set_option maxRecDepth 100000 in
theorem classify_value_range : ∀ b, b < 256 →
    ∀ v ∈ (classify b).drop 1, 0x27 ≤ v ∧ v ≤ 0x7A := by
  decide

set_option maxRecDepth 100000 in
theorem bufferAddArgs_length_class : ∀ b, b < 256 →
    (bufferAddArgs b).length =
      if (b ≤ 0x1F ∧ b ∉ exceptionSet) ∨ b ∈ shiftOffsetTable.map Prod.fst
          ∨ (0x41 ≤ b ∧ b ≤ 0x5A) then 2 else 1 := by
  decide

/-! ## Independence of the state -/

/-- C11: the handler's effect for a received byte `b` is a function of `b` alone.
For any two states that each have at least two free slots, whatever they hold, the
bytes appended are the same list `emitted b` and the bytes stored to `UDR1` are the
same list `controlReply b` (empty when nothing is transmitted). -/
theorem rx_state_independent (KEYBOARD_BUFFER b : Nat) (s₁ s₂ : State)
    (hcap : KEYBOARD_BUFFER ≤ 255)
    (hlen₁ : s₁.KeyIndex_Buffer.length = KEYBOARD_BUFFER)
    (hlen₂ : s₂.KeyIndex_Buffer.length = KEYBOARD_BUFFER)
    (hfree₁ : s₁.KeyIndex_BufferUsed + 2 ≤ KEYBOARD_BUFFER)
    (hfree₂ : s₂.KeyIndex_BufferUsed + 2 ≤ KEYBOARD_BUFFER) :
    Appends s₁ (USART1_RX_vect KEYBOARD_BUFFER b s₁) (emitted b) ∧
    Appends s₂ (USART1_RX_vect KEYBOARD_BUFFER b s₂) (emitted b) ∧
    (USART1_RX_vect KEYBOARD_BUFFER b s₁).UDR1_tx = s₁.UDR1_tx ++ controlReply b ∧
    (USART1_RX_vect KEYBOARD_BUFFER b s₂).UDR1_tx = s₂.UDR1_tx ++ controlReply b := by
  have hl : (emitted b).length ≤ 2 := by
    rw [emitted_length]
    rcases bufferAddArgs_length b with h | h <;> omega
  exact ⟨rx_appends_emitted KEYBOARD_BUFFER b s₁ hlen₁ hcap (by omega),
    rx_appends_emitted KEYBOARD_BUFFER b s₂ hlen₂ hcap (by omega),
    rx_tx KEYBOARD_BUFFER b s₁, rx_tx KEYBOARD_BUFFER b s₂⟩

/-- C11 at `b = 0x0A`, from an idle module and from one that has handled `0x41`
and `0xC3` before: both runs append `[0xF6, 0x6A]` and transmit `0x10`. -/
theorem rx_state_independent_witness :
    (6 ≤ 255 ∧ (idle 6).KeyIndex_Buffer.length = 6 ∧
      (receive 6 [0x41, 0xC3] (idle 6)).KeyIndex_Buffer.length = 6 ∧
      (idle 6).KeyIndex_BufferUsed + 2 ≤ 6 ∧
      (receive 6 [0x41, 0xC3] (idle 6)).KeyIndex_BufferUsed + 2 ≤ 6) ∧
    Appends (idle 6) (USART1_RX_vect 6 0x0A (idle 6)) [0xF6, 0x6A] ∧
    Appends (receive 6 [0x41, 0xC3] (idle 6))
      (USART1_RX_vect 6 0x0A (receive 6 [0x41, 0xC3] (idle 6))) [0xF6, 0x6A] ∧
    (USART1_RX_vect 6 0x0A (idle 6)).UDR1_tx = (idle 6).UDR1_tx ++ [0x10] ∧
    (USART1_RX_vect 6 0x0A (receive 6 [0x41, 0xC3] (idle 6))).UDR1_tx
      = (receive 6 [0x41, 0xC3] (idle 6)).UDR1_tx ++ [0x10] := by
  have h := rx_state_independent 6 0x0A (idle 6) (receive 6 [0x41, 0xC3] (idle 6))
    (by decide) (by decide) (by decide) (by decide) (by decide)
  exact ⟨⟨by decide, by decide, by decide, by decide, by decide⟩, h⟩

/-! ## Markers and remapped values -/

/-- C12: for every received byte `b` that the handler remaps, that is, for which it
appends a pair `[m, v]`, the first byte `m` is a marker `0xF5` or `0xF6` and the
computed byte `v` is neither `0xF5` nor `0xF6`. -/
theorem remapped_value_not_marker (KEYBOARD_BUFFER b m v : Nat) (s : State)
    (hbyte : b < 256)
    (hlen : s.KeyIndex_Buffer.length = KEYBOARD_BUFFER)
    (hcap : KEYBOARD_BUFFER ≤ 255)
    (hfree : s.KeyIndex_BufferUsed + 2 ≤ KEYBOARD_BUFFER)
    (hout : Appends s (USART1_RX_vect KEYBOARD_BUFFER b s) [m, v]) :
    (m = 0xF5 ∨ m = 0xF6) ∧ v ≠ 0xF5 ∧ v ≠ 0xF6 := by
  have hl : (classify b).length ≤ 2 := by
    rcases classify_length b hbyte with h | h <;> omega
  have hc : classify b = [m, v] :=
    appends_unique (rx_appends_classify KEYBOARD_BUFFER b s hbyte hlen hcap (by omega)) hout
  have hm := classify_marker b hbyte (by rw [hc]; rfl)
  have hv := classify_value_range b hbyte v (by rw [hc]; simp)
  rw [hc] at hm
  simp only [List.head?_cons, Option.some.injEq] at hm
  exact ⟨hm, by omega, by omega⟩

/-- C12 at `b = 0x7E`, which the handler remaps to `0xF5`, `0x60`. -/
theorem remapped_value_not_marker_witness :
    (0x7E < 256 ∧ (idle 2).KeyIndex_Buffer.length = 2 ∧ 2 ≤ 255 ∧
      (idle 2).KeyIndex_BufferUsed + 2 ≤ 2 ∧
      Appends (idle 2) (USART1_RX_vect 2 0x7E (idle 2)) [0xF5, 0x60]) ∧
    ((0xF5 = 0xF5 ∨ 0xF5 = 0xF6) ∧ 0x60 ≠ 0xF5 ∧ 0x60 ≠ 0xF6) :=
  ⟨⟨by decide, by decide, by decide, by decide, by decide⟩,
    remapped_value_not_marker 2 0x7E 0xF5 0x60 (idle 2)
      (by decide) (by decide) (by decide) (by decide) (by decide)⟩

/-! ## The counter -/

theorem bufferAdd_used_cases (cap : Nat) (x : Int) (s : State) (hcap : cap ≤ 255) :
    ((bufferAdd cap x s).KeyIndex_BufferUsed = s.KeyIndex_BufferUsed ∧
        cap ≤ s.KeyIndex_BufferUsed) ∨
    ((bufferAdd cap x s).KeyIndex_BufferUsed = s.KeyIndex_BufferUsed + 1 ∧
        s.KeyIndex_BufferUsed < cap) := by
  by_cases h : s.KeyIndex_BufferUsed < cap
  · right
    rw [bufferAdd_room cap x s (by omega) h]
    exact ⟨rfl, h⟩
  · left
    rw [bufferAdd_full cap x s (by omega)]
    exact ⟨rfl, by omega⟩

theorem bufferAdds_used (cap : Nat) (args : List Int) (s : State)
    (hcap : cap ≤ 255) (hroom : s.KeyIndex_BufferUsed + args.length ≤ cap) :
    (bufferAdds cap args s).KeyIndex_BufferUsed = s.KeyIndex_BufferUsed + args.length := by
  induction args generalizing s with
  | nil => rfl
  | cons x xs ih =>
    simp only [List.length_cons] at hroom
    have h₁ : (bufferAdd cap x s).KeyIndex_BufferUsed = s.KeyIndex_BufferUsed + 1 := by
      rw [bufferAdd_room cap x s (by omega) (by omega)]
    rw [bufferAdds_cons, ih (bufferAdd cap x s) (by rw [h₁]; omega), h₁,
      List.length_cons]
    omega

theorem rx_used (cap b : Nat) (s : State) :
    (USART1_RX_vect cap b s).KeyIndex_BufferUsed = (addKeys cap b s).KeyIndex_BufferUsed :=
  (specialKeys_buffer b (addKeys cap b s)).2

/-- C13: for every received byte `b` and every state with
`KeyIndex_BufferUsed ≤ KEYBOARD_BUFFER`, one run of the handler leaves the counter
unchanged or increases it by 1 or 2; with at least two free slots the increase is
exactly 2 when `b` is in `[0x00, 0x1F]` outside the exception set, in the
shift-offset table, or in `[0x41, 0x5A]`, and exactly 1 for every other `b`. -/
theorem rx_counter_step (KEYBOARD_BUFFER b : Nat) (s : State)
    (hbyte : b < 256)
    (hcap : KEYBOARD_BUFFER ≤ 255)
    (hused : s.KeyIndex_BufferUsed ≤ KEYBOARD_BUFFER) :
    ((USART1_RX_vect KEYBOARD_BUFFER b s).KeyIndex_BufferUsed = s.KeyIndex_BufferUsed ∨
      (USART1_RX_vect KEYBOARD_BUFFER b s).KeyIndex_BufferUsed = s.KeyIndex_BufferUsed + 1 ∨
      (USART1_RX_vect KEYBOARD_BUFFER b s).KeyIndex_BufferUsed = s.KeyIndex_BufferUsed + 2) ∧
    (s.KeyIndex_BufferUsed + 2 ≤ KEYBOARD_BUFFER →
      ((b ≤ 0x1F ∧ b ∉ exceptionSet) ∨ b ∈ shiftOffsetTable.map Prod.fst
          ∨ (0x41 ≤ b ∧ b ≤ 0x5A) →
        (USART1_RX_vect KEYBOARD_BUFFER b s).KeyIndex_BufferUsed
          = s.KeyIndex_BufferUsed + 2) ∧
      (¬ ((b ≤ 0x1F ∧ b ∉ exceptionSet) ∨ b ∈ shiftOffsetTable.map Prod.fst
          ∨ (0x41 ≤ b ∧ b ≤ 0x5A)) →
        (USART1_RX_vect KEYBOARD_BUFFER b s).KeyIndex_BufferUsed
          = s.KeyIndex_BufferUsed + 1)) := by
  rw [rx_used]
  constructor
  · rcases addKeys_shape KEYBOARD_BUFFER b s with ⟨x, h⟩ | ⟨x, y, h⟩
    · rw [h]
      rcases bufferAdd_used_cases KEYBOARD_BUFFER x s hcap with h₁ | h₁ <;> omega
    · rw [h]
      rcases bufferAdd_used_cases KEYBOARD_BUFFER x s hcap with h₁ | h₁ <;>
        rcases bufferAdd_used_cases KEYBOARD_BUFFER y (bufferAdd KEYBOARD_BUFFER x s) hcap
          with h₂ | h₂ <;> omega
  · intro hfree
    have hl := bufferAddArgs_length_class b hbyte
    have hu := bufferAdds_used KEYBOARD_BUFFER (bufferAddArgs b) s hcap
      (by rcases bufferAddArgs_length b with h | h <;> omega)
    rw [addKeys_eq_bufferAdds, hu, hl]
    constructor
    · intro hcls
      rw [if_pos hcls]
    · intro hcls
      rw [if_neg hcls]

/-- C13 at `b = 0x41` (two bytes) on an idle module with two cells. -/
theorem rx_counter_step_witness :
    (0x41 < 256 ∧ 2 ≤ 255 ∧ (idle 2).KeyIndex_BufferUsed ≤ 2 ∧
      (idle 2).KeyIndex_BufferUsed + 2 ≤ 2 ∧
      ((0x41 ≤ 0x1F ∧ 0x41 ∉ exceptionSet) ∨ 0x41 ∈ shiftOffsetTable.map Prod.fst
        ∨ (0x41 ≤ 0x41 ∧ 0x41 ≤ 0x5A))) ∧
    (USART1_RX_vect 2 0x41 (idle 2)).KeyIndex_BufferUsed
      = (idle 2).KeyIndex_BufferUsed + 2 :=
  ⟨⟨by decide, by decide, by decide, by decide, by decide⟩,
    ((rx_counter_step 2 0x41 (idle 2) (by decide) (by decide) (by decide)).2
      (by decide)).1 (by decide)⟩

/-! ## Order of the stored bytes -/

theorem contents_length (s : State) (cap : Nat)
    (hlen : s.KeyIndex_Buffer.length = cap) (hused : s.KeyIndex_BufferUsed ≤ cap) :
    (contents s).length = s.KeyIndex_BufferUsed := by
  simp only [contents, List.length_take, hlen]
  omega

theorem take_take_append (l r : List Nat) (n : Nat) :
    (l.take n ++ r).take n = (l ++ r).take n := by
  by_cases h : l.length ≤ n
  · rw [List.take_of_length_le h]
  · have hn : n ≤ l.length := by omega
    rw [List.take_append_of_le_length hn,
      List.take_append_of_le_length (by rw [List.length_take]; omega), List.take_take]
    simp

theorem bufferAdds_contents (cap : Nat) (args : List Int) (s : State)
    (hlen : s.KeyIndex_Buffer.length = cap) (hcap : cap ≤ 255)
    (hused : s.KeyIndex_BufferUsed ≤ cap) :
    (bufferAdds cap args s).KeyIndex_Buffer.length = cap ∧
    (bufferAdds cap args s).KeyIndex_BufferUsed ≤ cap ∧
    contents (bufferAdds cap args s) = (contents s ++ args.map toUint8).take cap := by
  induction args generalizing s with
  | nil =>
    refine ⟨hlen, hused, ?_⟩
    have hc := contents_length s cap hlen hused
    show contents s = List.take cap (contents s ++ ([] : List Nat))
    rw [List.append_nil]
    exact (List.take_of_length_le (by omega)).symm
  | cons x xs ih =>
    rw [bufferAdds_cons]
    by_cases hroom : s.KeyIndex_BufferUsed < cap
    · have h₁ := bufferAdd_appends cap x s hlen (by omega) hroom
      obtain ⟨k₁, k₂, k₃⟩ := ih (bufferAdd cap x s) (by rw [bufferAdd_length, hlen])
        (by rw [h₁.1]; simp; omega)
      refine ⟨k₁, k₂, ?_⟩
      rw [k₃, h₁.2.1]
      simp
    · rw [bufferAdd_full cap x s (by omega)]
      obtain ⟨k₁, k₂, k₃⟩ := ih s hlen hused
      refine ⟨k₁, k₂, ?_⟩
      have hc : cap ≤ (contents s).length := by
        rw [contents_length s cap hlen hused]
        omega
      rw [k₃, List.take_append_of_le_length hc, List.take_append_of_le_length hc]

theorem rx_contents (cap b : Nat) (s : State)
    (hlen : s.KeyIndex_Buffer.length = cap) (hcap : cap ≤ 255)
    (hused : s.KeyIndex_BufferUsed ≤ cap) :
    (USART1_RX_vect cap b s).KeyIndex_Buffer.length = cap ∧
    (USART1_RX_vect cap b s).KeyIndex_BufferUsed ≤ cap ∧
    contents (USART1_RX_vect cap b s) = (contents s ++ emitted b).take cap := by
  obtain ⟨hb, hu⟩ := specialKeys_buffer b (addKeys cap b s)
  unfold contents USART1_RX_vect
  rw [hb, hu, addKeys_eq_bufferAdds]
  exact bufferAdds_contents cap (bufferAddArgs b) s hlen hcap hused

theorem receive_cons (cap b : Nat) (bs : List Nat) (s : State) :
    receive cap (b :: bs) s = receive cap bs (USART1_RX_vect cap b s) := rfl

theorem receive_contents (cap : Nat) (bs : List Nat) (s : State)
    (hlen : s.KeyIndex_Buffer.length = cap) (hcap : cap ≤ 255)
    (hused : s.KeyIndex_BufferUsed ≤ cap) :
    contents (receive cap bs s) = (contents s ++ bs.flatMap emitted).take cap := by
  induction bs generalizing s with
  | nil =>
    have hc := contents_length s cap hlen hused
    show contents s = List.take cap (contents s ++ ([] : List Nat))
    rw [List.append_nil]
    exact (List.take_of_length_le (by omega)).symm
  | cons b bs ih =>
    obtain ⟨h₁, h₂, h₃⟩ := rx_contents cap b s hlen hcap hused
    rw [receive_cons, ih (USART1_RX_vect cap b s) h₁ h₂, h₃, take_take_append,
      List.flatMap_cons, List.append_assoc]

theorem flatMap_emitted (bs : List Nat) (hbytes : ∀ b ∈ bs, b < 256) :
    bs.flatMap emitted = bs.flatMap classify := by
  induction bs with
  | nil => rfl
  | cons b bs ih =>
    rw [List.flatMap_cons, List.flatMap_cons, emitted_eq_classify b (hbytes b (by simp)),
      ih (fun c hc => hbytes c (by simp [hc]))]

/-- C14: for every state whose stored part `init` has length at most
`KEYBOARD_BUFFER` and every finite sequence `bs` of bytes, running the handler on
`bs` in order leaves the stored part equal to the first `KEYBOARD_BUFFER` bytes of
`init ++ classify bs[0] ++ classify bs[1] ++ ...`; when the capacity suffices it is
the whole concatenation. -/
theorem receive_stores_in_order (KEYBOARD_BUFFER : Nat) (bs : List Nat) (s : State)
    (hbytes : ∀ b ∈ bs, b < 256)
    (hlen : s.KeyIndex_Buffer.length = KEYBOARD_BUFFER)
    (hcap : KEYBOARD_BUFFER ≤ 255)
    (hused : s.KeyIndex_BufferUsed ≤ KEYBOARD_BUFFER) :
    contents (receive KEYBOARD_BUFFER bs s)
        = (contents s ++ bs.flatMap classify).take KEYBOARD_BUFFER ∧
    ((contents s).length + (bs.flatMap classify).length ≤ KEYBOARD_BUFFER →
      contents (receive KEYBOARD_BUFFER bs s) = contents s ++ bs.flatMap classify) := by
  have key := receive_contents KEYBOARD_BUFFER bs s hlen hcap hused
  rw [flatMap_emitted bs hbytes] at key
  refine ⟨key, fun hfit => ?_⟩
  rw [key]
  exact List.take_of_length_le (by rw [List.length_append]; exact hfit)

/-- C14 on a buffer of four cells holding one byte, fed `0x41`, `0x0A`, `0x08`: the
five bytes offered after the stored one are cut to the first three. -/
theorem receive_stores_in_order_witness :
    ((∀ b ∈ [0x41, 0x0A, 0x08], b < 256) ∧
      (State.mk [0x61, 0, 0, 0] 1 []).KeyIndex_Buffer.length = 4 ∧ 4 ≤ 255 ∧
      (State.mk [0x61, 0, 0, 0] 1 []).KeyIndex_BufferUsed ≤ 4) ∧
    contents (receive 4 [0x41, 0x0A, 0x08] (State.mk [0x61, 0, 0, 0] 1 []))
      = [0x61, 0xF5, 0x61, 0xF6] ∧
    ([0x61] ++ [0xF5, 0x61] ++ [0xF6, 0x6A] ++ [0x08]).take 4 = [0x61, 0xF5, 0x61, 0xF6] := by
  have h := (receive_stores_in_order 4 [0x41, 0x0A, 0x08] (State.mk [0x61, 0, 0, 0] 1 [])
    (by decide) (by decide) (by decide) (by decide)).1
  exact ⟨⟨by decide, by decide, by decide, by decide⟩, h, by decide⟩

/-! ## Control replies and the buffer -/

theorem bufferAdds_full (cap : Nat) (args : List Int) (s : State)
    (hfull : cap ≤ s.KeyIndex_BufferUsed) : bufferAdds cap args s = s := by
  induction args with
  | nil => rfl
  | cons x xs ih => rw [bufferAdds_cons, bufferAdd_full cap x s hfull, ih]

theorem rx_full (cap b : Nat) (s : State) (hfull : cap ≤ s.KeyIndex_BufferUsed) :
    (USART1_RX_vect cap b s).KeyIndex_Buffer = s.KeyIndex_Buffer ∧
    (USART1_RX_vect cap b s).KeyIndex_BufferUsed = s.KeyIndex_BufferUsed := by
  obtain ⟨hb, hu⟩ := specialKeys_buffer b (addKeys cap b s)
  unfold USART1_RX_vect
  rw [hb, hu, addKeys_eq_bufferAdds, bufferAdds_full cap _ s hfull]
  exact ⟨rfl, rfl⟩

/-- C15: for `b` one of `0xC3`, `0xB2`, `0x0A` the handler stores the control byte
(`0x04`, `0x0A`, `0x10`) to `UDR1` in every state; when the buffer is full the array
and the counter are left unchanged; when there is room it also appends the
classification output of `b`, which is `[0xC3]`, `[0xB2]` and `[0xF6, 0x6A]`. -/
theorem control_reply_frame (KEYBOARD_BUFFER b : Nat) (s : State)
    (hb : b = 0xC3 ∨ b = 0xB2 ∨ b = 0x0A)
    (hlen : s.KeyIndex_Buffer.length = KEYBOARD_BUFFER)
    (hcap : KEYBOARD_BUFFER ≤ 255) :
    (USART1_RX_vect KEYBOARD_BUFFER b s).UDR1_tx
        = s.UDR1_tx ++ [if b = 0xC3 then 0x04 else if b = 0xB2 then 0x0A else 0x10] ∧
    (KEYBOARD_BUFFER ≤ s.KeyIndex_BufferUsed →
      (USART1_RX_vect KEYBOARD_BUFFER b s).KeyIndex_Buffer = s.KeyIndex_Buffer ∧
      (USART1_RX_vect KEYBOARD_BUFFER b s).KeyIndex_BufferUsed = s.KeyIndex_BufferUsed) ∧
    (b = 0xC3 → s.KeyIndex_BufferUsed + 1 ≤ KEYBOARD_BUFFER →
      Appends s (USART1_RX_vect KEYBOARD_BUFFER b s) [0xC3]) ∧
    (b = 0xB2 → s.KeyIndex_BufferUsed + 1 ≤ KEYBOARD_BUFFER →
      Appends s (USART1_RX_vect KEYBOARD_BUFFER b s) [0xB2]) ∧
    (b = 0x0A → s.KeyIndex_BufferUsed + 2 ≤ KEYBOARD_BUFFER →
      Appends s (USART1_RX_vect KEYBOARD_BUFFER b s) [0xF6, 0x6A]) := by
  refine ⟨?_, rx_full KEYBOARD_BUFFER b s, ?_, ?_, ?_⟩
  · rw [rx_tx]
    rcases hb with rfl | rfl | rfl <;> rfl
  · rintro rfl hroom
    exact rx_appends_emitted KEYBOARD_BUFFER 0xC3 s hlen hcap hroom
  · rintro rfl hroom
    exact rx_appends_emitted KEYBOARD_BUFFER 0xB2 s hlen hcap hroom
  · rintro rfl hroom
    exact rx_appends_emitted KEYBOARD_BUFFER 0x0A s hlen hcap hroom

/-- C15 at `b = 0xC3` on a full buffer of two cells: `0x04` is transmitted and the
buffer is as before. -/
theorem control_reply_frame_witness :
    ((0xC3 = 0xC3 ∨ 0xC3 = 0xB2 ∨ 0xC3 = 0x0A) ∧
      (State.mk [0xF5, 0x61] 2 []).KeyIndex_Buffer.length = 2 ∧ 2 ≤ 255 ∧
      2 ≤ (State.mk [0xF5, 0x61] 2 []).KeyIndex_BufferUsed) ∧
    (USART1_RX_vect 2 0xC3 (State.mk [0xF5, 0x61] 2 [])).UDR1_tx = [0x04] ∧
    (USART1_RX_vect 2 0xC3 (State.mk [0xF5, 0x61] 2 [])).KeyIndex_Buffer = [0xF5, 0x61] ∧
    (USART1_RX_vect 2 0xC3 (State.mk [0xF5, 0x61] 2 [])).KeyIndex_BufferUsed = 2 := by
  have h := control_reply_frame 2 0xC3 (State.mk [0xF5, 0x61] 2 [])
    (by decide) (by decide) (by decide)
  exact ⟨⟨by decide, by decide, by decide, by decide⟩, h.1, h.2.1 (by decide)⟩

/-! ## A pair offered to a single free slot -/

/-- C16: for every received byte `b` whose classification output is a pair
`[m, v]` and every state with exactly one free slot, the handler stores only the
marker `m` (which is `0xF5` or `0xF6`) and drops `v`: the counter ends at
`KEYBOARD_BUFFER`, the last stored byte is `m`, and the only other effect is the
control reply of `b` on `UDR1`. -/
theorem marker_only_store (KEYBOARD_BUFFER b m v : Nat) (s : State)
    (hbyte : b < 256)
    (hcls : classify b = [m, v])
    (hlen : s.KeyIndex_Buffer.length = KEYBOARD_BUFFER)
    (hcap : KEYBOARD_BUFFER ≤ 255)
    (hone : s.KeyIndex_BufferUsed + 1 = KEYBOARD_BUFFER) :
    (m = 0xF5 ∨ m = 0xF6) ∧
    Appends s (USART1_RX_vect KEYBOARD_BUFFER b s) [m] ∧
    (USART1_RX_vect KEYBOARD_BUFFER b s).KeyIndex_BufferUsed = KEYBOARD_BUFFER ∧
    (contents (USART1_RX_vect KEYBOARD_BUFFER b s)).getLast? = some m ∧
    (USART1_RX_vect KEYBOARD_BUFFER b s).UDR1_tx = s.UDR1_tx ++ controlReply b := by
  have hm := classify_marker b hbyte (by rw [hcls]; rfl)
  rw [hcls] at hm
  simp only [List.head?_cons, Option.some.injEq] at hm
  have he : (bufferAddArgs b).map toUint8 = [m, v] := by
    rw [← hcls, ← emitted_eq_classify b hbyte]
    rfl
  have happ : Appends s (USART1_RX_vect KEYBOARD_BUFFER b s) [m] := by
    match hargs : bufferAddArgs b, he with
    | [x, y], he =>
      simp only [List.map_cons, List.map_nil, List.cons.injEq, and_true] at he
      have h₁ := bufferAdd_appends KEYBOARD_BUFFER x s hlen (by omega) (by omega)
      have hfull : bufferAdd KEYBOARD_BUFFER y (bufferAdd KEYBOARD_BUFFER x s)
          = bufferAdd KEYBOARD_BUFFER x s :=
        bufferAdd_full KEYBOARD_BUFFER y _ (by rw [h₁.1]; simp; omega)
      unfold USART1_RX_vect
      rw [addKeys_eq_bufferAdds, hargs, bufferAdds_cons, bufferAdds_cons]
      show Appends s (specialKeys b (bufferAdd KEYBOARD_BUFFER y
        (bufferAdd KEYBOARD_BUFFER x s))) [m]
      rw [hfull, ← he.1]
      exact appends_specialKeys b h₁
  refine ⟨hm, happ, ?_, ?_, rx_tx KEYBOARD_BUFFER b s⟩
  · rw [happ.1]
    simpa using hone
  · rw [happ.2.1]
    simp

/-- C16 at `b = 0x41` with one free slot in a buffer of two cells: only `0xF5` is
stored. -/
theorem marker_only_store_witness :
    (0x41 < 256 ∧ classify 0x41 = [0xF5, 0x61] ∧
      (State.mk [0x08, 0] 1 []).KeyIndex_Buffer.length = 2 ∧ 2 ≤ 255 ∧
      (State.mk [0x08, 0] 1 []).KeyIndex_BufferUsed + 1 = 2) ∧
    ((0xF5 = 0xF5 ∨ 0xF5 = 0xF6) ∧
      Appends (State.mk [0x08, 0] 1 []) (USART1_RX_vect 2 0x41 (State.mk [0x08, 0] 1 []))
        [0xF5] ∧
      (USART1_RX_vect 2 0x41 (State.mk [0x08, 0] 1 [])).KeyIndex_BufferUsed = 2 ∧
      (contents (USART1_RX_vect 2 0x41 (State.mk [0x08, 0] 1 []))).getLast? = some 0xF5 ∧
      (USART1_RX_vect 2 0x41 (State.mk [0x08, 0] 1 [])).UDR1_tx
        = (State.mk [0x08, 0] 1 []).UDR1_tx ++ controlReply 0x41) :=
  ⟨⟨by decide, by decide, by decide, by decide, by decide⟩,
    marker_only_store 2 0x41 0xF5 0x61 (State.mk [0x08, 0] 1 [])
      (by decide) (by decide) (by decide) (by decide) (by decide)⟩

/-! ## Plain bytes -/

set_option maxRecDepth 100000 in
theorem classify_single : ∀ b, b < 256 → (classify b).length = 1 → classify b = [b] := by
  decide

/-- C17, refuted as stated: the bytes `0xF5` and `0xF6` are passed through by the
default rule, so on an idle module with one cell it is not true that every single
byte the handler appends for `0xF5` differs from `0xF5` and `0xF6`, and likewise for
`0xF6`. -/
theorem plain_byte_counterexample :
    classify 0xF5 = [0xF5] ∧
    ¬ (∀ v, Appends (idle 1) (USART1_RX_vect 1 0xF5 (idle 1)) [v] → v ≠ 0xF5 ∧ v ≠ 0xF6) ∧
    classify 0xF6 = [0xF6] ∧
    ¬ (∀ v, Appends (idle 1) (USART1_RX_vect 1 0xF6 (idle 1)) [v] → v ≠ 0xF5 ∧ v ≠ 0xF6) := by
  refine ⟨by decide, fun h => ?_, by decide, fun h => ?_⟩
  · exact (h 0xF5 (by decide)).1 rfl
  · exact (h 0xF6 (by decide)).2 rfl

/-- C17, amended: for every received byte `b` and every state with at least one
free slot, when the classification output of `b` is a single byte (exception
passthrough or default rule) the handler appends exactly `[b]`, the received byte
unmodified, so the single byte it appends is `0xF5` or `0xF6` exactly when `b` is;
for `b` other than `0xF5` and `0xF6` that byte is neither `0xF5` nor `0xF6`; a
received `0xF5` or `0xF6` has a single-byte output, produced by one
`bufferAdd( keyValue )` call, and is appended as the plain byte `[b]`. -/
theorem plain_byte_not_marker (KEYBOARD_BUFFER b : Nat) (s : State)
    (hbyte : b < 256)
    (hlen : s.KeyIndex_Buffer.length = KEYBOARD_BUFFER)
    (hcap : KEYBOARD_BUFFER ≤ 255)
    (hfree : s.KeyIndex_BufferUsed + 1 ≤ KEYBOARD_BUFFER) :
    ((classify b).length = 1 →
      Appends s (USART1_RX_vect KEYBOARD_BUFFER b s) [b] ∧
      ∀ v, Appends s (USART1_RX_vect KEYBOARD_BUFFER b s) [v] →
        v = b ∧ ((v = 0xF5 ∨ v = 0xF6) ↔ (b = 0xF5 ∨ b = 0xF6))) ∧
    ((classify b).length = 1 → b ≠ 0xF5 ∧ b ≠ 0xF6 →
      ∀ v, Appends s (USART1_RX_vect KEYBOARD_BUFFER b s) [v] → v ≠ 0xF5 ∧ v ≠ 0xF6) ∧
    (b = 0xF5 ∨ b = 0xF6 →
      (classify b).length = 1 ∧ bufferAddArgs b = [(b : Int)] ∧
      Appends s (USART1_RX_vect KEYBOARD_BUFFER b s) [b]) := by
  have key : (classify b).length = 1 →
      Appends s (USART1_RX_vect KEYBOARD_BUFFER b s) [b] ∧
      ∀ v, Appends s (USART1_RX_vect KEYBOARD_BUFFER b s) [v] → v = b := by
    intro hplain
    have happ := rx_appends_classify KEYBOARD_BUFFER b s hbyte hlen hcap
      (by rw [hplain]; exact hfree)
    rw [classify_single b hbyte hplain] at happ
    refine ⟨happ, fun v hout => ?_⟩
    have hc := appends_unique happ hout
    simpa using hc.symm
  refine ⟨fun hplain => ⟨(key hplain).1, fun v hout => ?_⟩, fun hplain hb v hout => ?_,
    fun hb => ?_⟩
  · have hv := (key hplain).2 v hout
    exact ⟨hv, by rw [hv]⟩
  · have hv := (key hplain).2 v hout
    rw [hv]
    exact hb
  · have hplain : (classify b).length = 1 := by
      rcases hb with rfl | rfl <;> decide
    have hargs : bufferAddArgs b = [(b : Int)] := by
      rcases hb with rfl | rfl <;> decide
    exact ⟨hplain, hargs, (key hplain).1⟩

/-- C17 amended, at `b = 0x1B` (escape) and at `b = 0xF6`, each with exactly one free
slot: the first appends `[0x1B]`, which is no marker value, the second appends the
plain byte `[0xF6]`. -/
theorem plain_byte_not_marker_witness :
    (0x1B < 256 ∧ 0xF6 < 256 ∧
      (State.mk [0x61, 0] 1 []).KeyIndex_Buffer.length = 2 ∧ 2 ≤ 255 ∧
      (State.mk [0x61, 0] 1 []).KeyIndex_BufferUsed + 1 ≤ 2 ∧
      (classify 0x1B).length = 1 ∧ (0x1B ≠ 0xF5 ∧ 0x1B ≠ 0xF6) ∧
      (0xF6 = 0xF5 ∨ 0xF6 = 0xF6)) ∧
    (Appends (State.mk [0x61, 0] 1 [])
        (USART1_RX_vect 2 0x1B (State.mk [0x61, 0] 1 [])) [0x1B] ∧
      (∀ v, Appends (State.mk [0x61, 0] 1 [])
          (USART1_RX_vect 2 0x1B (State.mk [0x61, 0] 1 [])) [v] → v ≠ 0xF5 ∧ v ≠ 0xF6)) ∧
    ((classify 0xF6).length = 1 ∧ bufferAddArgs 0xF6 = [((0xF6 : Nat) : Int)] ∧
      Appends (State.mk [0x61, 0] 1 [])
        (USART1_RX_vect 2 0xF6 (State.mk [0x61, 0] 1 [])) [0xF6]) := by
  have h₁ := plain_byte_not_marker 2 0x1B (State.mk [0x61, 0] 1 [])
    (by decide) (by decide) (by decide) (by decide)
  have h₂ := plain_byte_not_marker 2 0xF6 (State.mk [0x61, 0] 1 [])
    (by decide) (by decide) (by decide) (by decide)
  exact ⟨⟨by decide, by decide, by decide, by decide, by decide, by decide, by decide,
      by decide⟩,
    ⟨(h₁.1 (by decide)).1, h₁.2.1 (by decide) (by decide)⟩, h₂.2.2 (by decide)⟩

/-! ## Shift remaps land on plain keys -/

set_option maxRecDepth 100000 in
theorem classify_shift_target : ∀ b, b < 256 →
    b ∈ shiftOffsetTable.map Prod.fst ∨ (0x41 ≤ b ∧ b ≤ 0x5A) →
    (classify b).length = 2 ∧ (classify b).head? = some 0xF5 ∧
      ∀ c ∈ (classify b).drop 1, c < 256 ∧ classify c = [c] := by
  decide

/-- C18: for every received byte `b` in the shift-offset table or in `[0x41, 0x5A]`
there is a byte `c` such that the handler appends `0xF5` followed by `c` for `b`, and
the handler applied to `c` appends exactly `[c]`, with no marker. -/
theorem shift_target_plain (KEYBOARD_BUFFER b : Nat) (s t : State)
    (hb : b ∈ shiftOffsetTable.map Prod.fst ∨ (0x41 ≤ b ∧ b ≤ 0x5A))
    (hcap : KEYBOARD_BUFFER ≤ 255)
    (hlen : s.KeyIndex_Buffer.length = KEYBOARD_BUFFER)
    (hfree : s.KeyIndex_BufferUsed + 2 ≤ KEYBOARD_BUFFER)
    (hlen' : t.KeyIndex_Buffer.length = KEYBOARD_BUFFER)
    (hfree' : t.KeyIndex_BufferUsed + 1 ≤ KEYBOARD_BUFFER) :
    ∃ c, Appends s (USART1_RX_vect KEYBOARD_BUFFER b s) [0xF5, c] ∧
      Appends t (USART1_RX_vect KEYBOARD_BUFFER c t) [c] := by
  have hbyte : b < 256 := by
    rcases hb with h | h
    · simp only [shiftOffsetTable, List.map, List.mem_cons, List.mem_singleton,
        List.not_mem_nil, or_false] at h
      omega
    · omega
  obtain ⟨h₁, h₂, h₃⟩ := classify_shift_target b hbyte hb
  have happ := rx_appends_classify KEYBOARD_BUFFER b s hbyte hlen hcap (by omega)
  match hc : classify b, h₁, h₂, h₃, happ with
  | [m, c], _, h₂, h₃, happ =>
    simp only [List.head?_cons, Option.some.injEq] at h₂
    obtain ⟨hc256, hcc⟩ := h₃ c (by simp)
    have happ' := rx_appends_classify KEYBOARD_BUFFER c t hc256 hlen' hcap
      (by rw [hcc]; simpa using hfree')
    rw [hcc] at happ'
    rw [h₂] at happ
    exact ⟨c, happ, happ'⟩

/-- C18 at `b = 0x5F` (underscore), which is remapped to `0xF5`, `0x2D`, and `0x2D`
(minus) is then a plain key. -/
theorem shift_target_plain_witness :
    ((0x5F ∈ shiftOffsetTable.map Prod.fst ∨ (0x41 ≤ 0x5F ∧ 0x5F ≤ 0x5A)) ∧ 3 ≤ 255 ∧
      (idle 3).KeyIndex_Buffer.length = 3 ∧ (idle 3).KeyIndex_BufferUsed + 2 ≤ 3 ∧
      (State.mk [0xF5, 0x2D, 0] 2 []).KeyIndex_Buffer.length = 3 ∧
      (State.mk [0xF5, 0x2D, 0] 2 []).KeyIndex_BufferUsed + 1 ≤ 3) ∧
    ∃ c, Appends (idle 3) (USART1_RX_vect 3 0x5F (idle 3)) [0xF5, c] ∧
      Appends (State.mk [0xF5, 0x2D, 0] 2 [])
        (USART1_RX_vect 3 c (State.mk [0xF5, 0x2D, 0] 2 [])) [c] :=
  ⟨⟨by decide, by decide, by decide, by decide, by decide, by decide⟩,
    shift_target_plain 3 0x5F (idle 3) (State.mk [0xF5, 0x2D, 0] 2 [])
      (by decide) (by decide) (by decide) (by decide) (by decide) (by decide)⟩

/-! ## Injectivity -/

/-- C19: for any two distinct received bytes, the byte sequences the handler appends
for them, each given at least two free slots, are different; each sequence decodes
back to the byte it was produced for. -/
theorem classification_injective (KEYBOARD_BUFFER b₁ b₂ : Nat) (s₁ s₂ : State)
    (out₁ out₂ : List Nat)
    (hbyte₁ : b₁ < 256) (hbyte₂ : b₂ < 256)
    (hne : b₁ ≠ b₂)
    (hcap : KEYBOARD_BUFFER ≤ 255)
    (hlen₁ : s₁.KeyIndex_Buffer.length = KEYBOARD_BUFFER)
    (hlen₂ : s₂.KeyIndex_Buffer.length = KEYBOARD_BUFFER)
    (hfree₁ : s₁.KeyIndex_BufferUsed + 2 ≤ KEYBOARD_BUFFER)
    (hfree₂ : s₂.KeyIndex_BufferUsed + 2 ≤ KEYBOARD_BUFFER)
    (hout₁ : Appends s₁ (USART1_RX_vect KEYBOARD_BUFFER b₁ s₁) out₁)
    (hout₂ : Appends s₂ (USART1_RX_vect KEYBOARD_BUFFER b₂ s₂) out₂) :
    out₁ ≠ out₂ ∧ decode out₁ = some b₁ ∧ decode out₂ = some b₂ := by
  have hl₁ : (classify b₁).length ≤ 2 := by
    rcases classify_length b₁ hbyte₁ with h | h <;> omega
  have hl₂ : (classify b₂).length ≤ 2 := by
    rcases classify_length b₂ hbyte₂ with h | h <;> omega
  have hc₁ : classify b₁ = out₁ := appends_unique
    (rx_appends_classify KEYBOARD_BUFFER b₁ s₁ hbyte₁ hlen₁ hcap (by omega)) hout₁
  have hc₂ : classify b₂ = out₂ := appends_unique
    (rx_appends_classify KEYBOARD_BUFFER b₂ s₂ hbyte₂ hlen₂ hcap (by omega)) hout₂
  have hd₁ : decode out₁ = some b₁ := hc₁ ▸ decode_classify b₁ hbyte₁
  have hd₂ : decode out₂ = some b₂ := hc₂ ▸ decode_classify b₂ hbyte₂
  refine ⟨fun heq => hne ?_, hd₁, hd₂⟩
  rw [heq, hd₂] at hd₁
  exact (Option.some.inj hd₁).symm

/-- C19 at `0x1C` and `0x5C`: the first is appended as `0xF6`, `0x5C`, the second
as the plain byte `0x5C`. -/
theorem classification_injective_witness :
    (0x1C < 256 ∧ 0x5C < 256 ∧ 0x1C ≠ 0x5C ∧ 2 ≤ 255 ∧
      (idle 2).KeyIndex_Buffer.length = 2 ∧ (idle 2).KeyIndex_Buffer.length = 2 ∧
      (idle 2).KeyIndex_BufferUsed + 2 ≤ 2 ∧ (idle 2).KeyIndex_BufferUsed + 2 ≤ 2 ∧
      Appends (idle 2) (USART1_RX_vect 2 0x1C (idle 2)) [0xF6, 0x5C] ∧
      Appends (idle 2) (USART1_RX_vect 2 0x5C (idle 2)) [0x5C]) ∧
    ([0xF6, 0x5C] ≠ [0x5C] ∧ decode [0xF6, 0x5C] = some 0x1C ∧ decode [0x5C] = some 0x5C) :=
  ⟨⟨by decide, by decide, by decide, by decide, by decide, by decide, by decide,
      by decide, by decide, by decide⟩,
    classification_injective 2 0x1C 0x5C (idle 2) (idle 2) [0xF6, 0x5C] [0x5C]
      (by decide) (by decide) (by decide) (by decide) (by decide) (by decide)
      (by decide) (by decide) (by decide) (by decide)⟩

/-! ## No wrap-around in the remap arithmetic -/

set_option maxRecDepth 100000 in
theorem bufferAddArgs_value_range : ∀ b, b < 256 →
    ∀ y ∈ (bufferAddArgs b).drop 1, (0x27 : Int) ≤ y ∧ y ≤ 0x7A := by
  decide

set_option maxRecDepth 100000 in
theorem bufferAddArgs_marker : ∀ b, b < 256 → (bufferAddArgs b).length = 2 →
    (bufferAddArgs b).head? = some 0xF5 ∨ (bufferAddArgs b).head? = some 0xF6 := by
  decide

theorem toUint8_of_range (y : Int) (hlo : 0 ≤ y) (hhi : y < 256) : (toUint8 y : Int) = y := by
  unfold toUint8
  omega

/-- C20: for every received byte `b` that the handler remaps, that is, for which the
first switch calls `bufferAdd` twice, with a marker `x` and then the `int` expression
`y` (the byte plus or minus its offset), the exact integer `y` lies in
`[0x27, 0x7A]`, the byte stored for it equals `y` without truncation, and it is a
7-bit printable ASCII code (between `0x20` and `0x7E`). -/
theorem remap_no_wrap (KEYBOARD_BUFFER b : Nat) (x y : Int) (s : State)
    (hbyte : b < 256)
    (hargs : bufferAddArgs b = [x, y])
    (hlen : s.KeyIndex_Buffer.length = KEYBOARD_BUFFER)
    (hcap : KEYBOARD_BUFFER ≤ 255)
    (hfree : s.KeyIndex_BufferUsed + 2 ≤ KEYBOARD_BUFFER) :
    (x = 0xF5 ∨ x = 0xF6) ∧
    (0x27 ≤ y ∧ y ≤ 0x7A) ∧
    Appends s (USART1_RX_vect KEYBOARD_BUFFER b s) [toUint8 x, toUint8 y] ∧
    (toUint8 y : Int) = y ∧
    (0x20 ≤ toUint8 y ∧ toUint8 y ≤ 0x7E ∧ toUint8 y < 128) := by
  have hr := bufferAddArgs_value_range b hbyte y (by rw [hargs]; simp)
  have hm := bufferAddArgs_marker b hbyte (by rw [hargs]; rfl)
  rw [hargs] at hm
  simp only [List.head?_cons, Option.some.injEq] at hm
  have hy := toUint8_of_range y (by omega) (by omega)
  have happ := rx_appends_emitted KEYBOARD_BUFFER b s hlen hcap
    (by rw [emitted_length, hargs]; exact hfree)
  have he : emitted b = [toUint8 x, toUint8 y] := by
    unfold emitted
    rw [hargs]
    rfl
  rw [he] at happ
  exact ⟨hm, hr, happ, hy, by omega, by omega, by omega⟩

/-- C20 at `b = 0x5F`, where the source computes `keyValue - 0x32`: the exact
integer is `0x2D`. -/
theorem remap_no_wrap_witness :
    (0x5F < 256 ∧ bufferAddArgs 0x5F = [0xF5, 0x2D] ∧
      (idle 2).KeyIndex_Buffer.length = 2 ∧ 2 ≤ 255 ∧
      (idle 2).KeyIndex_BufferUsed + 2 ≤ 2) ∧
    (((0xF5 : Int) = 0xF5 ∨ (0xF5 : Int) = 0xF6) ∧
      ((0x27 : Int) ≤ 0x2D ∧ (0x2D : Int) ≤ 0x7A) ∧
      Appends (idle 2) (USART1_RX_vect 2 0x5F (idle 2)) [toUint8 0xF5, toUint8 0x2D] ∧
      (toUint8 0x2D : Int) = 0x2D ∧
      (0x20 ≤ toUint8 0x2D ∧ toUint8 0x2D ≤ 0x7E ∧ toUint8 0x2D < 128)) := by
  have h := remap_no_wrap 2 0x5F 0xF5 0x2D (idle 2)
    (by decide) (by decide) (by decide) (by decide) (by decide)
  exact ⟨⟨by decide, by decide, by decide, by decide, by decide⟩, h⟩

end Kaypro1
